import Mathlib

/-!
Verification of the synextra pipeline execution engine against its
natural-language specification.

The definitions below are a shallow embedding of the Python sources:

* `src/sdk/src/synextra/services/pipeline_runtime.py` (scheduler, node
  executors, fallback answer policy, lexical BM25 fallback),
* `src/sdk/src/synextra/retrieval/bm25_search.py` (BM25 index and store),
* `src/sdk/src/synextra/services/rag_agent_orchestrator.py` (read-page
  lookup, citation building),
* `src/backend/src/synextra_backend/services/document_store.py` (page store;
  the sdk twin of this module is not shipped under `src/`, the backend copy
  is the same component).

Modelling conventions: Python strings are Lean `String`s manipulated through
their character lists (ASCII behaviour of `lower`/whitespace is assumed, as
in the repository's data); Python `int` is `Int`, `float` scores are `ℚ`
except that the transcendental BM25 idf value `log (1 + (N - df + 0.5) /
(df + 0.5))` is kept as an explicit parameter `idf : String → ℚ` of the
scorer, since every claim under verification is independent of the numeric
value of the idf table; Python dicts keyed by strings are association lists;
`asyncio` effects reduce to sequential evaluation (the fan-out of
`parallel_search` runs synchronous bodies in input order) and raised
exceptions become `Except String`.
-/

/-! ## Character-level text helpers (pipeline_runtime / rag_agent_orchestrator) -/

/-- Mirrors Python `str.split()` with no argument: maximal runs of
non-whitespace characters, empty pieces dropped. -/
def wordsOfAux : List Char → List Char → List (List Char)
  | [], acc => if acc = [] then [] else [acc.reverse]
  | c :: cs, acc =>
    if c.isWhitespace then
      if acc = [] then wordsOfAux cs [] else acc.reverse :: wordsOfAux cs []
    else wordsOfAux cs (c :: acc)

/-- Source `_normalize_whitespace` / `_normalize_inline_whitespace`:
`" ".join(text.split()).strip()` (both modules define the identical helper). -/
def normalizeWhitespace (s : String) : String :=
  " ".intercalate ((wordsOfAux s.toList []).map (fun w => String.mk w))

/-- Python `str.strip()`: drop leading and trailing whitespace. -/
def stripStr (s : String) : String :=
  String.mk (((s.toList.dropWhile Char.isWhitespace).reverse.dropWhile Char.isWhitespace).reverse)

/-- Python `str.rstrip()`: drop trailing whitespace. -/
def rstripStr (s : String) : String :=
  String.mk ((s.toList.reverse.dropWhile Char.isWhitespace).reverse)

/-- Python `s[:n]` on a string (character prefix). -/
def takeStr (s : String) (n : Nat) : String :=
  String.mk (s.toList.take n)

/-- Python `str.lower()` (ASCII). -/
def lowerStr (s : String) : String :=
  String.mk (s.toList.map Char.toLower)

/-- Source `_truncate(text, limit)` in pipeline_runtime: normalize, keep
whole if within `limit`, else cut, right-strip and append `"..."`. -/
def truncateText (s : String) (limit : Nat) : String :=
  let normalized := normalizeWhitespace s
  if normalized.length ≤ limit then normalized
  else rstripStr (takeStr normalized limit) ++ "..."

/-- Source `_truncate_quote(text, limit=240)` in rag_agent_orchestrator:
same shape but appends the ellipsis character. -/
def truncateQuote (s : String) : String :=
  let cleaned := normalizeWhitespace s
  if cleaned.length ≤ 240 then cleaned
  else rstripStr (takeStr cleaned 240) ++ "…"

/-- Source `_quote_fingerprint(text, prefix_len=160)`: normalized,
lower-cased, cut to the 160-character prefix. -/
def quoteFingerprint (s : String) : String :=
  let normalized := lowerStr (normalizeWhitespace s)
  if normalized.length ≤ 160 then normalized else takeStr normalized 160

/-- A character matched by the token regex `[A-Za-z0-9_]+`. -/
def isWordChar (c : Char) : Bool :=
  c.isAlphanum || c = '_'

/-- Maximal runs of `[A-Za-z0-9_]` characters (the `findall` of the token
regex shared by `bm25_search._tokenize` and `pipeline_runtime`). -/
def tokenRunsAux : List Char → List Char → List String
  | [], acc => if acc = [] then [] else [String.mk acc.reverse]
  | c :: cs, acc =>
    if isWordChar c then tokenRunsAux cs (c :: acc)
    else if acc = [] then tokenRunsAux cs []
    else String.mk acc.reverse :: tokenRunsAux cs []

/-- Source `_tokenize`: lower-cased alphanumeric runs, in order, with
duplicates kept. -/
def tokenize (s : String) : List String :=
  (tokenRunsAux s.toList []).map lowerStr

/-- Source `_tokenize_search`: the same runs as a set; modelled as the
deduplicated token list (first occurrences, order irrelevant to its uses). -/
def tokenizeSearch (s : String) : List String :=
  (tokenize s).dedup

/-- A sentence-final character of the split regex `(?<=[.!?])\s+`. -/
def isSentenceEnd (c : Char) : Bool :=
  c = '.' || c = '!' || c = '?'

/-- Head-is-whitespace test used by the sentence splitter. -/
def headIsWs : List Char → Bool
  | [] => false
  | d :: _ => d.isWhitespace

/-- Mirrors `re.split(r"(?<=[.!?])\s+", text)`: cut after each `[.!?]` that
is directly followed by whitespace, consuming that whitespace run. -/
def splitSentencesAux (l : List Char) (acc : List Char) : List String :=
  match l with
  | [] => [String.mk acc.reverse]
  | c :: cs =>
    if isSentenceEnd c && headIsWs cs then
      String.mk (c :: acc).reverse :: splitSentencesAux (cs.dropWhile Char.isWhitespace) []
    else splitSentencesAux cs (c :: acc)
termination_by l.length
decreasing_by
  all_goals simp only [List.length_cons]
  · exact Nat.lt_succ_of_le ((List.dropWhile_sublist Char.isWhitespace).length_le)
  · exact Nat.lt_succ_self _

/-- Source `_SENTENCE_SPLIT_RE.split` applied to one text. -/
def splitSentences (s : String) : List String :=
  splitSentencesAux s.toList []

/-- Mirrors `_STREAM_CHUNK_RE.findall` (`\S+\s*`): each chunk is a maximal
non-space run together with the following whitespace run; leading
whitespace is skipped. `inTrail` records that the current chunk has already
entered its trailing-whitespace part. -/
def streamChunksAux : List Char → List Char → Bool → List String
  | [], acc, _ => if acc = [] then [] else [String.mk acc.reverse]
  | c :: cs, acc, inTrail =>
    if c.isWhitespace then
      if acc = [] then streamChunksAux cs [] false
      else streamChunksAux cs (c :: acc) true
    else
      if inTrail then String.mk acc.reverse :: streamChunksAux cs [c] false
      else streamChunksAux cs (c :: acc) false

/-- Source `_stream_chunks`: regex pieces, or `[text]` when the text is
non-empty but yields no piece, or `[]` for the empty text. -/
def streamChunks (text : String) : List String :=
  let parts := streamChunksAux text.toList [] false
  if parts = [] then (if text = "" then [] else [text]) else parts

/-- Substring containment as the Python `in` operator on strings. -/
def strContains (s sub : String) : Prop :=
  ∃ u v, s = u ++ sub ++ v

/-- Boolean substring test used where the source tests `"..." in s`. -/
def strContainsB (s sub : String) : Bool :=
  decide (sub.toList <:+: s.toList)

/-! ### Python ordering and stable sorting

Python compares strings lexicographically by code point and `list.sort` is
a stable sort by the key tuple. The comparators below mirror the key tuples
of the three `sort` calls in the source; `sortByB` is a stable sort (Lean's
insertion sort), and a stable sort by a total preorder is unique, so it
agrees with Python's Timsort elementwise. -/

/-- Code-point comparison of character lists: Python string `<`. -/
def charLtB : List Char → List Char → Bool
  | [], [] => false
  | [], _ :: _ => true
  | _ :: _, [] => false
  | a :: as, b :: bs =>
    if a.toNat < b.toNat then true
    else if b.toNat < a.toNat then false
    else charLtB as bs

/-- Python string `<`. -/
def strLtB (a b : String) : Bool :=
  charLtB a.toList b.toList

/-- Python string `<=`. -/
def strLeB (a b : String) : Bool :=
  ! strLtB b a

/-- Python string `<=` as a proposition. -/
def strLe (a b : String) : Prop :=
  strLeB a b = true

/-- A stable sort by a Bool comparator (Python `list.sort`). -/
def sortByB {α : Type} (leB : α → α → Bool) (l : List α) : List α :=
  l.insertionSort (fun a b => leB a b = true)

/-- Lexicographic comparator layer: descending in `key`, ties decided by
`restB` (Python sort key `-key`). -/
def descLexB {α β : Type} [LinearOrder β] (key : α → β) (restB : α → α → Bool)
    (a b : α) : Bool :=
  decide (key b < key a) || (decide (key a = key b) && restB a b)

/-- Lexicographic comparator layer: ascending in `key`, ties decided by
`restB`. -/
def ascLexB {α β : Type} [LinearOrder β] (key : α → β) (restB : α → α → Bool)
    (a b : α) : Bool :=
  decide (key a < key b) || (decide (key a = key b) && restB a b)

/-- Lexicographic comparator layer: ascending in a string `key` (code-point
order), ties decided by `restB`. -/
def strLexB {α : Type} (key : α → String) (restB : α → α → Bool) (a b : α) : Bool :=
  strLtB (key a) (key b) || (decide (key a = key b) && restB a b)

/-- Source `_render_template`: substitute the literal placeholder, or fall
back to the stripped template / the query itself. -/
def renderTemplate (template : String) (query : String) : String :=
  if ¬ (strContainsB template "\x7bquery\x7d" = true) then
    (if stripStr template = "" then query else stripStr template)
  else stripStr (template.replace "\x7bquery\x7d" query)

/-! ## Data model (retrieval/types.py, repositories, schemas/pipeline.py) -/

/-- `EvidenceChunk` of `retrieval/types.py`; `PipelineEvidenceChunk` of
`schemas/pipeline.py` carries the identical fields and the runtime's
`_from_evidence_chunk` copies them one-for-one, so one structure models
both. Scores are `ℚ` in place of Python floats. -/
structure EvidenceChunk where
  document_id : String
  chunk_id : String
  page_number : Option Int
  text : String
  score : ℚ
  source_tool : String
deriving DecidableEq, Inhabited

/-- `ChunkRecord` of `repositories/rag_document_repository.py` (the bounding
box, a float list, is carried as `ℚ`). -/
structure ChunkRecord where
  chunk_id : String
  document_id : String
  page_number : Int
  chunk_index : Int
  token_count : Int
  citation_span : String
  text : String
  bounding_box : List ℚ
deriving DecidableEq, Inhabited

/-- `RagCitation` of `schemas/rag_chat.py` / `PipelineCitation` of
`schemas/pipeline.py` (same fields). -/
structure RagCitation where
  document_id : String
  chunk_id : String
  page_number : Option Int
  supporting_quote : String
  source_tool : String
  score : ℚ
deriving DecidableEq, Inhabited

/-- `PipelineAgentOutputEnvelope` of `schemas/pipeline.py`. -/
structure PipelineAgentOutputEnvelope where
  answer : String
  citations : List RagCitation
  tools_used : List String
  evidence : List EvidenceChunk
  upstream_answers : List String
deriving DecidableEq, Inhabited

/-- `PipelineAgentRunRequest` of `schemas/pipeline.py`, restricted to the
fields `run_agent` reads (`reasoning_effort`, `review_enabled` and
`system_instructions` only flow into the abstracted model call). -/
structure PipelineAgentRunRequest where
  prompt : String
  tools : List String
  document_ids : List String
  evidence : List EvidenceChunk
  upstream_outputs : List PipelineAgentOutputEnvelope
deriving DecidableEq, Inhabited

/-! ## Evidence helpers and the fallback-answer policy (pipeline_runtime.py) -/

/-- Source `_dedupe_evidence`: keep the first chunk for every
`(document_id, chunk_id)` pair, preserving order. -/
def dedupeEvidenceAux (seen : List (String × String)) : List EvidenceChunk → List EvidenceChunk
  | [] => []
  | c :: cs =>
    if (c.document_id, c.chunk_id) ∈ seen then dedupeEvidenceAux seen cs
    else c :: dedupeEvidenceAux ((c.document_id, c.chunk_id) :: seen) cs

/-- Source `_dedupe_evidence`. -/
def dedupeEvidence (chunks : List EvidenceChunk) : List EvidenceChunk :=
  dedupeEvidenceAux [] chunks

/-- Source `_classify_model_error`. -/
def classifyModelError (modelError : String) : String :=
  let lowered := lowerStr modelError
  if strContainsB lowered "insufficient_quota" then "openai_quota_exhausted"
  else if (strContainsB lowered "error code: 429" || strContainsB lowered "status code: 429")
      && strContainsB lowered "quota" then "openai_quota_exhausted"
  else if modelError = "missing_openai_api_key" then "missing_openai_api_key"
  else if modelError = "empty_model_output" then "empty_model_output"
  else "model_call_failed"

/-- Source `_model_error_message`. -/
def modelErrorMessage (errorCode : String) : String :=
  if errorCode = "openai_quota_exhausted" then
    "OpenAI API quota is exhausted for the configured key."
  else if errorCode = "missing_openai_api_key" then
    "No OpenAI API key is configured for the backend."
  else if errorCode = "empty_model_output" then
    "The model returned an empty output."
  else "The model call failed before a response was produced."

/-- Inner loop of `_extract_summary_points`: walk one chunk's sentences,
skipping blanks and already-seen (lower-cased) sentences, appending the
200-character truncation, returning as soon as `maxPoints` is reached. -/
def extractPointsFromSentences (maxPoints : Nat) :
    List String → List String → List String → List String × List String
  | [], seen, points => (seen, points)
  | sentence :: rest, seen, points =>
    let normalized := normalizeWhitespace sentence
    if normalized = "" then extractPointsFromSentences maxPoints rest seen points
    else
      let key := lowerStr normalized
      if key ∈ seen then extractPointsFromSentences maxPoints rest seen points
      else
        let points2 := points ++ [truncateText normalized 200]
        if maxPoints ≤ points2.length then (key :: seen, points2)
        else extractPointsFromSentences maxPoints rest (key :: seen) points2

/-- Outer loop of `_extract_summary_points` over the evidence chunks. -/
def extractPointsFromChunks (maxPoints : Nat) :
    List EvidenceChunk → List String → List String → List String
  | [], _, points => points
  | chunk :: rest, seen, points =>
    let next := extractPointsFromSentences maxPoints (splitSentences chunk.text) seen points
    if maxPoints ≤ next.2.length then next.2
    else extractPointsFromChunks maxPoints rest next.1 next.2

/-- Source `_extract_summary_points(chunks, max_points=4)`. -/
def extractSummaryPoints (chunks : List EvidenceChunk) (maxPoints : Nat) : List String :=
  extractPointsFromChunks maxPoints chunks [] []

/-- Source `_summarize_evidence(chunks, max_items=4)`. -/
def summarizeEvidence (chunks : List EvidenceChunk) : String :=
  if chunks = [] then ""
  else
    let snippets := (chunks.take 4).filterMap (fun c =>
      let t := truncateText c.text 180
      if t = "" then none else some t)
    "\n".intercalate (snippets.map (fun sn => "- " ++ sn))

/-- Source `PipelineRuntime._build_fallback_answer`. -/
def buildFallbackAnswer (prompt : String) (upstreamAnswers : List String)
    (evidenceSummary : String) : String :=
  let parts : List String :=
    (if upstreamAnswers ≠ [] then
      ["Upstream results:\n" ++ "\n".intercalate (upstreamAnswers.map (fun t => "- " ++ t))]
     else []) ++
    (if evidenceSummary ≠ "" then ["Supporting evidence:\n" ++ evidenceSummary] else [])
  let parts := if parts = [] then
      ["No upstream outputs or evidence were available for this step."]
    else parts
  "\n\n".intercalate (parts ++ ["Task: " ++ prompt])

/-- Source `PipelineRuntime._build_model_failure_answer`. -/
def buildModelFailureAnswer (prompt : String) (upstreamAnswers : List String)
    (evidence : List EvidenceChunk) (errorCode : String) : String :=
  let summaryPoints := extractSummaryPoints evidence 4
  let sections : List String :=
    ["Model generation unavailable.", "Reason: " ++ modelErrorMessage errorCode]
  let sections := sections ++
    (if summaryPoints ≠ [] then
      ["Evidence-based summary:\n" ++ "\n".intercalate (summaryPoints.map (fun p => "- " ++ p))]
     else if upstreamAnswers ≠ [] then
      ["Upstream results:\n" ++ "\n".intercalate (upstreamAnswers.map (fun t => "- " ++ t))]
     else ["No evidence was available to build a fallback summary."])
  "\n\n".intercalate (sections ++ ["Task: " ++ prompt])

/-! ## Citation building (pipeline_runtime.py and rag_agent_orchestrator.py) -/

/-- Source `PipelineRuntime._build_citations`: one citation per
`(document_id, chunk_id)` pair, chunks with an empty 240-character quote
skipped. There is no quote-prefix deduplication in this builder. -/
def PipelineRuntime.build_citations : List EvidenceChunk → List RagCitation :=
  let rec go (seen : List (String × String)) : List EvidenceChunk → List RagCitation
    | [] => []
    | c :: cs =>
      if (c.document_id, c.chunk_id) ∈ seen then go seen cs
      else
        let quote := truncateText c.text 240
        if quote = "" then go ((c.document_id, c.chunk_id) :: seen) cs
        else
          { document_id := c.document_id, chunk_id := c.chunk_id,
            page_number := c.page_number, supporting_quote := quote,
            source_tool := c.source_tool, score := c.score } ::
            go ((c.document_id, c.chunk_id) :: seen) cs
  go []

/-- Source `RagAgentOrchestrator._build_citations`: dedup first by
`(document_id, chunk_id)`, then by `(document_id, quote fingerprint)`. -/
def RagAgentOrchestrator.buildCitationsGo (seenChunks seenQuotes : List (String × String)) :
    List EvidenceChunk → List RagCitation
  | [] => []
  | c :: cs =>
    if (c.document_id, c.chunk_id) ∈ seenChunks then
      RagAgentOrchestrator.buildCitationsGo seenChunks seenQuotes cs
    else
      let seenChunks2 := (c.document_id, c.chunk_id) :: seenChunks
      let quote := truncateQuote c.text
      if quote = "" then RagAgentOrchestrator.buildCitationsGo seenChunks2 seenQuotes cs
      else
        let qkey := (c.document_id, quoteFingerprint quote)
        if qkey ∈ seenQuotes then RagAgentOrchestrator.buildCitationsGo seenChunks2 seenQuotes cs
        else
          { document_id := c.document_id, chunk_id := c.chunk_id,
            page_number := c.page_number, supporting_quote := quote,
            source_tool := c.source_tool, score := c.score } ::
            RagAgentOrchestrator.buildCitationsGo seenChunks2 (qkey :: seenQuotes) cs

/-- Source `RagAgentOrchestrator._build_citations`. -/
def RagAgentOrchestrator.build_citations (evidence : List EvidenceChunk) : List RagCitation :=
  RagAgentOrchestrator.buildCitationsGo [] [] evidence

/-! ## BM25 scorer, index and store (retrieval/bm25_search.py) -/

/-- BM25 `k1 = 1.5`. -/
def bm25K1 : ℚ := 3 / 2

/-- BM25 `b = 0.75`. -/
def bm25B : ℚ := 3 / 4

/-- Source `_Bm25Scorer.score` over the fallback index built by
`_build_fallback_index`: one score per corpus document. The idf table
(`log (1 + (n_docs - df + 0.5) / (df + 0.5))` per token, a transcendental
float) is the `idf` parameter; term frequency, document length, the average
document length and the saturation formula are computed exactly as in the
source. An empty-token query scores every document `0.0` before any idf is
consulted. -/
def bm25Score (idf : String → ℚ) (docs : List (List String)) (query : String) : List ℚ :=
  let queryTokens := tokenize query
  if queryTokens = [] then docs.map (fun _ => 0)
  else
    let nDocs : ℚ := if docs.length = 0 then 1 else (docs.length : ℚ)
    let avgdl : ℚ := ((docs.map (fun t => (t.length : ℚ))).sum) / nDocs
    docs.map (fun tokens =>
      let dl : ℚ := (tokens.length : ℚ)
      let denomNorm := bm25K1 * (1 - bm25B + bm25B * (dl / avgdl))
      (queryTokens.map (fun t =>
        let freq := tokens.count t
        if freq = 0 then 0
        else idf t * ((freq : ℚ) * (bm25K1 + 1)) / ((freq : ℚ) + denomNorm))).sum)

/-- `Bm25Index` (document_id, signature, chunk records). -/
structure Bm25Index where
  document_id : String
  signature : String
  chunk_records : List ChunkRecord
deriving DecidableEq, Inhabited

/-- Comparator of `Bm25Index.search`: Python `sort(key=(-score, idx))`. -/
def idxLeB : Nat × ℚ → Nat × ℚ → Bool :=
  descLexB (fun p => p.2) (fun p q => decide (p.1 ≤ q.1))

/-- Source `Bm25Index.search`: score every chunk, sort by descending score
with the enumeration index as tie break, keep the first `max 1 topK`
entries, and drop entries scoring `≤ 0` while building evidence. -/
def Bm25Index.search (idf : String → ℚ) (index : Bm25Index) (query : String)
    (topK : Int) : List EvidenceChunk :=
  let scores := bm25Score idf (index.chunk_records.map (fun c => tokenize c.text)) query
  let sorted := sortByB idxLeB scores.enum
  (sorted.take (max 1 topK).toNat).filterMap (fun p =>
    if p.2 ≤ 0 then none
    else
      let chunk := index.chunk_records.getD p.1 default
      some { document_id := chunk.document_id, chunk_id := chunk.chunk_id,
             page_number := some chunk.page_number, text := chunk.text,
             score := p.2, source_tool := "bm25_search" })

/-- `Bm25IndexStore`: the registry dict as an association list. -/
structure Bm25IndexStore where
  indexes : List (String × Bm25Index)
deriving DecidableEq, Inhabited

/-- Comparator of `Bm25IndexStore.search`: Python
`sort(key=(-score, chunk_id))`. -/
def storeLeB : EvidenceChunk → EvidenceChunk → Bool :=
  descLexB EvidenceChunk.score (fun a b => strLeB a.chunk_id b.chunk_id)

/-- Source `Bm25IndexStore.search`: candidate ids are the given list when
truthy, else the sorted registry keys; per-document results are
concatenated, re-sorted by `(-score, chunk_id)` and cut to `max 1 topK`. -/
def Bm25IndexStore.search (idf : String → ℚ) (store : Bm25IndexStore) (query : String)
    (topK : Int) (documentIds : Option (List String)) : List EvidenceChunk :=
  let candidateIds := match documentIds with
    | some (x :: xs) => x :: xs
    | _ => sortByB strLeB (store.indexes.map Prod.fst)
  let evidence := candidateIds.flatMap (fun did =>
    match store.indexes.lookup did with
    | none => []
    | some index => Bm25Index.search idf index query topK)
  (sortByB storeLeB evidence).take (max 1 topK).toNat

/-! ## Document store (services/document_store.py) -/

/-- `PageText` (page number, lines, line count). -/
structure PageText where
  page_number : Int
  lines : List String
  line_count : Int
deriving DecidableEq, Inhabited

/-- `DocumentInfo`. -/
structure DocumentInfo where
  document_id : String
  filename : String
  page_count : Int
deriving DecidableEq, Inhabited

/-- `DocumentStore`: `_pages` and `_info` dicts as association lists. -/
structure DocumentStore where
  pagesMap : List (String × List PageText)
  infoMap : List (String × DocumentInfo)

/-- Source `DocumentStore.list_documents` (insertion-ordered values). -/
def DocumentStore.list_documents (store : DocumentStore) : List DocumentInfo :=
  store.infoMap.map Prod.snd

/-- Python `f"{i:>{width}}"`: right-align with spaces. -/
def padLeft (s : String) (width : Nat) : String :=
  String.mk (List.replicate (width - s.length) ' ') ++ s

/-- Source `_format_numbered_lines`. -/
def formatNumberedLines (lines : List String) (start : Int) : String :=
  let e := start + (lines.length : Int) - 1
  let width := max (toString e).length 3
  "\n".intercalate (lines.enum.map (fun p =>
    padLeft (toString (start + (p.1 : Int))) width ++ " | " ++ p.2))

/-- Source `DocumentStore.read_page`: `none` when the document or page is
absent; otherwise the header plus numbered selected lines (or the
out-of-range message when the clamped start exceeds the line count). -/
def DocumentStore.read_page (store : DocumentStore) (documentId : String) (pageNumber : Int)
    (startLine endLine : Option Int) : Option String :=
  match store.pagesMap.lookup documentId with
  | none => none
  | some pages =>
    match pages.find? (fun p => p.page_number == pageNumber) with
    | none => none
    | some page =>
      let total := page.line_count
      let actualStart := match startLine with | some s => max 1 s | none => 1
      let actualEnd := match endLine with | some e => min total e | none => total
      if total < actualStart then
        some ("Page " ++ toString pageNumber ++ " has " ++ toString total ++
          " lines. Requested start_line " ++ toString actualStart ++ " is out of range.")
      else
        let selected := (page.lines.drop (actualStart - 1).toNat).take
          (actualEnd - (actualStart - 1)).toNat
        let header := "Page " ++ toString pageNumber ++
          (if startLine.isSome || endLine.isSome then
            " (lines " ++ toString actualStart ++ "-" ++ toString actualEnd ++
              " of " ++ toString total ++ ")"
          else " (" ++ toString total ++ " lines)")
        some (header ++ ":\n" ++ formatNumberedLines selected actualStart)

/-! ## Orchestrator read path (services/rag_agent_orchestrator.py) -/

/-- Source `RagAgentOrchestrator.run_read_document`: a missing document or
page raises `ValueError` (here `Except.error`; the Python `repr` quoting of
the id in the message is rendered with plain single quotes). A hit wraps
the page text as a single `read_document` evidence chunk whose chunk id
records the page and the requested line range (`start_line or 1` /
`end_line or "end"`, so a zero line bound falls back like `None`). -/
def RagAgentOrchestrator.run_read_document (store : DocumentStore) (documentId : String)
    (page : Int) (startLine endLine : Option Int) : Except String (List EvidenceChunk) :=
  match DocumentStore.read_page store documentId page startLine endLine with
  | none =>
    let available := (DocumentStore.list_documents store).map (fun d => d.document_id)
    Except.error ("Document \x27" ++ documentId ++ "\x27 page " ++ toString page ++
      " not found. Available documents: [" ++
      ", ".intercalate (available.map (fun i => "\x27" ++ i ++ "\x27")) ++ "]")
  | some text =>
    let chunkId := documentId ++ ":page:" ++ toString page ++
      (if startLine.isSome || endLine.isSome then
        ":lines:" ++
          toString (match startLine with | some s => if s = 0 then 1 else s | none => 1) ++
          "-" ++ (match endLine with | some e => if e = 0 then "end" else toString e | none => "end")
      else "")
    Except.ok [{ document_id := documentId, chunk_id := chunkId, page_number := some page,
                 text := text, score := 1, source_tool := "read_document" }]

/-! ## Pipeline runtime operations (services/pipeline_runtime.py) -/

/-- The collaborators a `PipelineRuntime` reaches through its `Synextra`
client: the shared document store, the repository's `list_chunks`, and the
BM25 index store behind `orchestrator.run_bm25`. -/
structure SynextraCtx where
  document_store : DocumentStore
  list_chunks : String → List ChunkRecord
  bm25_store : Bm25IndexStore

/-- Source `PipelineRuntime._default_document_id`. -/
def PipelineRuntime.default_document_id (ctx : SynextraCtx) : Option String :=
  match DocumentStore.list_documents ctx.document_store with
  | [] => none
  | d :: _ => some d.document_id

/-- `page_number if page_number is not None else -1` of the fallback sort
key. -/
def fallbackPageKey (c : EvidenceChunk) : Int :=
  match c.page_number with
  | some p => p
  | none => -1

/-- Comparator of `_fallback_lexical_bm25`: Python
`sort(key=(-overlap, document_id, page_number if not None else -1, chunk_id))`. -/
def fallbackLeB : Nat × EvidenceChunk → Nat × EvidenceChunk → Bool :=
  descLexB (fun p => p.1) (strLexB (fun p => p.2.document_id)
    (ascLexB (fun p => fallbackPageKey p.2)
      (fun p q => strLeB p.2.chunk_id q.2.chunk_id)))

/-- `len(query_tokens.intersection(chunk_tokens))` of
`_fallback_lexical_bm25`: the number of distinct query tokens the text
shares. -/
def lexicalOverlap (query : String) (text : String) : Nat :=
  ((tokenizeSearch query).filter (fun t => (tokenize text).contains t)).length

/-- The evidence chunk `_fallback_lexical_bm25` builds for one stored chunk. -/
def fallbackEvidenceOf (overlap : Nat) (chunk : ChunkRecord) : EvidenceChunk :=
  { document_id := chunk.document_id, chunk_id := chunk.chunk_id,
    page_number := some chunk.page_number, text := chunk.text,
    score := (overlap : ℚ), source_tool := "bm25_search" }

/-- `candidate_ids` of `_fallback_lexical_bm25`: the given ids when truthy,
else every stored document id. -/
def fallbackCandidates (ctx : SynextraCtx) (documentIds : Option (List String)) : List String :=
  match documentIds with
  | some (x :: xs) => x :: xs
  | _ => (DocumentStore.list_documents ctx.document_store).map
      (fun (d : DocumentInfo) => d.document_id)

/-- The `scored_chunks` list of `_fallback_lexical_bm25` before sorting. -/
def fallbackScored (ctx : SynextraCtx) (query : String)
    (documentIds : Option (List String)) : List (Nat × EvidenceChunk) :=
  (fallbackCandidates ctx documentIds).flatMap (fun did =>
    (ctx.list_chunks did).filterMap (fun (chunk : ChunkRecord) =>
      let overlap := lexicalOverlap query chunk.text
      if overlap = 0 then none
      else some ((overlap, fallbackEvidenceOf overlap chunk) : Nat × EvidenceChunk)))

/-- Source `PipelineRuntime._fallback_lexical_bm25`: score every stored
chunk of the candidate documents by the number of distinct query tokens it
shares, drop zero-overlap chunks, sort by the fallback key and keep
`max 1 topK` chunks. -/
def PipelineRuntime.fallback_lexical_bm25 (ctx : SynextraCtx) (query : String)
    (topK : Int) (documentIds : Option (List String)) : List EvidenceChunk :=
  if tokenizeSearch query = [] then []
  else
    ((sortByB fallbackLeB (fallbackScored ctx query documentIds)).take
      (max 1 topK).toNat).map Prod.snd

/-- Source `PipelineRuntime.bm25_search`: strip the query, run the index
store (`orchestrator.run_bm25` forwards to `Bm25IndexStore.search` with no
document filter), filter to the allowed ids when given, and silently fall
back to the lexical scorer when that left nothing and the prompt is
non-empty. -/
def PipelineRuntime.bm25_search (idf : String → ℚ) (ctx : SynextraCtx) (query : String)
    (topK : Int) (documentIds : Option (List String)) : List EvidenceChunk :=
  let prompt := stripStr query
  let raw := Bm25IndexStore.search idf ctx.bm25_store prompt topK none
  let evidence := match documentIds with
    | some (x :: xs) => raw.filter (fun c => (x :: xs).contains c.document_id)
    | _ => raw
  if evidence ≠ [] then evidence
  else if prompt = "" then []
  else PipelineRuntime.fallback_lexical_bm25 ctx prompt topK documentIds

/-- Source `PipelineRuntime.read_document`: resolve the document id (a
falsy id falls back to the first stored document; with no documents at all
the result is the empty evidence list) and delegate to the orchestrator's
`run_read_document`, whose lookup `ValueError` propagates. -/
def PipelineRuntime.read_document (ctx : SynextraCtx) (page : Int)
    (startLine endLine : Option Int) (documentId : Option String) :
    Except String (List EvidenceChunk) :=
  let resolved := match documentId with
    | some d => if d = "" then PipelineRuntime.default_document_id ctx else some d
    | none => PipelineRuntime.default_document_id ctx
  match resolved with
  | none => Except.ok []
  | some did => RagAgentOrchestrator.run_read_document ctx.document_store did page startLine endLine

/-- `ParallelReadDocumentQuery` / `ParallelBm25SearchQuery` of
`schemas/pipeline.py`. -/
inductive ParallelQuerySpec where
  | readDoc (page : Int) (startLine endLine : Option Int) (documentId : Option String)
  | search (queryTemplate : String) (topK : Int) (documentIds : Option (List String))
deriving DecidableEq

/-- `PipelineParallelSearchRequest` of `schemas/pipeline.py`. -/
structure PipelineParallelSearchRequest where
  query : String
  queries : List ParallelQuerySpec
deriving DecidableEq

/-- The inner `run_query` closure of `PipelineRuntime.parallel_search`. -/
def runParallelQuery (idf : String → ℚ) (ctx : SynextraCtx) (topQuery : String) :
    ParallelQuerySpec → Except String (List EvidenceChunk)
  | ParallelQuerySpec.readDoc page sl el did => PipelineRuntime.read_document ctx page sl el did
  | ParallelQuerySpec.search tmpl topK dids =>
    Except.ok (PipelineRuntime.bm25_search idf ctx (renderTemplate tmpl topQuery) topK dids)

/-- Source `PipelineRuntime.parallel_search`: `asyncio.gather` over the
sub-queries (synchronous bodies, so they run in input order and the first
raised exception propagates out of the node), then flatten and dedupe by
`(document_id, chunk_id)`. -/
def PipelineRuntime.parallel_search (idf : String → ℚ) (ctx : SynextraCtx)
    (request : PipelineParallelSearchRequest) : Except String (List EvidenceChunk) :=
  match request.queries.mapM (runParallelQuery idf ctx request.query) with
  | Except.error m => Except.error m
  | Except.ok groups => Except.ok (dedupeEvidence groups.flatten)

/-- Source `PipelineRuntime.run_agent`. The two collaborator calls are
parameters: `toolEvidence`/`executedTools` stand for the pair returned by
`_run_selected_tools` and `modelAnswer`/`modelError` for the pair returned
by `_generate_model_answer` (an unusable model call returns `("", some
error)`: missing key, empty output, or the stringified exception). All
remaining logic — evidence merge and dedup, upstream answer stripping,
tools-used accumulation, failure classification and marker appending,
fallback and failure answers, citation building — follows the source. -/
def PipelineRuntime.run_agent (request : PipelineAgentRunRequest)
    (toolEvidence : List EvidenceChunk) (executedTools : List String)
    (modelAnswer : String) (modelError : Option String) : PipelineAgentOutputEnvelope :=
  let prompt := stripStr request.prompt
  let evidence := dedupeEvidence (request.evidence ++ toolEvidence)
  let upstreamAnswers :=
    (request.upstream_outputs.map (fun o => stripStr o.answer)).filter (fun a => a != "")
  let evidenceSummary := summarizeEvidence evidence
  let toolsUsed := evidence.foldl (fun acc c =>
    if c.source_tool ≠ "" ∧ c.source_tool ∉ acc then acc ++ [c.source_tool] else acc)
    executedTools
  let result : String × List String :=
    if modelAnswer ≠ "" then (modelAnswer, toolsUsed)
    else
      match modelError with
      | some merr =>
        let code := classifyModelError merr
        let t1 := if "agent_model_generation_failed" ∈ toolsUsed then toolsUsed
          else toolsUsed ++ ["agent_model_generation_failed"]
        let marker := "agent_model_generation_failed:" ++ code
        let t2 := if marker ∈ t1 then t1 else t1 ++ [marker]
        (buildModelFailureAnswer prompt upstreamAnswers evidence code, t2)
      | none => (buildFallbackAnswer prompt upstreamAnswers evidenceSummary, toolsUsed)
  { answer := result.1, citations := PipelineRuntime.build_citations evidence,
    tools_used := result.2, evidence := evidence, upstream_answers := upstreamAnswers }

/-! ## Graph validator and scheduler (services/pipeline_runtime.py) -/

/-- A node of a `PipelineRunSpec` (`schemas/pipeline.py` node variants,
reduced to the id and the discriminating type tag: the node configs only
flow into the abstracted per-node executor). -/
structure PipelineNodeSpec where
  id : String
  type : String
deriving DecidableEq, Inhabited

/-- `PipelineEdgeSpec` of `schemas/pipeline.py`. -/
structure PipelineEdgeSpec where
  source : String
  target : String
deriving DecidableEq, Inhabited

/-- `PipelineRunSpec` (nodes, edges, top-level query). -/
structure PipelineRunSpec where
  nodes : List PipelineNodeSpec
  edges : List PipelineEdgeSpec
  query : String
deriving DecidableEq, Inhabited

/-- The `PipelineRunEvent` family of `schemas/pipeline.py`, reduced to the
discriminating tag plus the node/error fields the claims inspect (run ids,
timestamps and output payloads are dropped; `run_paused`/`run_resumed` are
omitted with the unpaused execution path, `pause_event = None`). -/
inductive RunEvent where
  | run_started
  | node_started (node_id : String) (node_type : String)
  | node_token (node_id : String) (token : String)
  | node_completed (node_id : String) (node_type : String)
  | node_failed (node_id : String) (node_type : String) (error : String)
  | run_completed
  | run_failed (error : String)
deriving DecidableEq, Inhabited

/-- `adjacency[source]` as built by `_topological_order`: targets of the
source's edges in edge order (`defaultdict(list)` append). -/
def adjacencyOf (edges : List PipelineEdgeSpec) (s : String) : List String :=
  (edges.filter (fun e => e.source == s)).map PipelineEdgeSpec.target

/-- `indegree[i]` right after the edge pass of `_topological_order`. -/
def indegreeOf (edges : List PipelineEdgeSpec) (i : String) : Int :=
  ((edges.filter (fun e => e.target == i)).length : Int)

/-- One pass of `for nxt in adjacency[current]`: decrement each target's
indegree in turn, appending a target to the queue the moment its indegree
reaches zero. -/
def relaxTargets (indeg : String → Int) (queue : List String) :
    List String → (String → Int) × List String
  | [] => (indeg, queue)
  | n :: ns =>
    let d := indeg n - 1
    relaxTargets (fun x => if x = n then d else indeg x)
      (if d = 0 then queue ++ [n] else queue) ns

/-- The `while queue` loop of `_topological_order` (Kahn's algorithm). The
source's loop always terminates because every node is enqueued at most
once; the fuel argument makes that explicit and is chosen large enough at
the call site that it never runs out. -/
def kahnLoop (adj : String → List String) : Nat → (String → Int) → List String → List String
  | _, _, [] => []
  | 0, _, _ :: _ => []
  | fuel + 1, indeg, current :: rest =>
    let step := relaxTargets indeg rest (adj current)
    current :: kahnLoop adj fuel step.1 step.2

/-- The edge-endpoint validation pass of `_topological_order`, erroring on
the first edge whose source or target is undeclared. -/
def checkEdges (ids : List String) : List PipelineEdgeSpec → Except String Unit
  | [] => Except.ok ()
  | e :: es =>
    if e.source ∉ ids then Except.error ("Unknown edge source node: " ++ e.source)
    else if e.target ∉ ids then Except.error ("Unknown edge target node: " ++ e.target)
    else checkEdges ids es

/-- The initial queue: the declared ids of indegree zero, sorted ascending. -/
def initialQueue (nodes : List PipelineNodeSpec) (edges : List PipelineEdgeSpec) :
    List String :=
  sortByB strLeB ((nodes.map PipelineNodeSpec.id).filter (fun i => indegreeOf edges i == 0))

/-- `by_id[i]` (well-defined after the duplicate check; ids produced by the
loop are always declared, the default is never reached there). -/
def nodeById (nodes : List PipelineNodeSpec) (i : String) : PipelineNodeSpec :=
  (nodes.find? (fun n => n.id == i)).getD { id := i, type := "" }

/-- Source `PipelineRuntime._topological_order`: duplicate-id check, edge
endpoint check, Kahn's algorithm seeded with the sorted zero-indegree ids,
and the cycle check comparing the emitted count with the node count. -/
def topologicalOrder (nodes : List PipelineNodeSpec) (edges : List PipelineEdgeSpec) :
    Except String (List PipelineNodeSpec) :=
  if ¬ (nodes.map PipelineNodeSpec.id).Nodup then
    Except.error "Pipeline nodes contain duplicate ids"
  else
    match checkEdges (nodes.map PipelineNodeSpec.id) edges with
    | Except.error msg => Except.error msg
    | Except.ok _ =>
      let orderedIds := kahnLoop (adjacencyOf edges) (nodes.length + edges.length + 1)
        (indegreeOf edges) (initialQueue nodes edges)
      if orderedIds.length ≠ nodes.length then Except.error "Pipeline graph contains a cycle"
      else Except.ok (orderedIds.map (nodeById nodes))

/-- The per-node loop of `run_stream`, with the node executor abstracted as
`exec : node → Except error answer` (`_execute_node`, whose output dict is
reduced to the agent answer string that feeds `node_token` events). On
success an agent node streams its answer's chunks as `node_token` events
before `node_completed`; on failure `node_failed` (with the source's
empty-message fallback) and `run_failed` are emitted and the run stops. -/
def runNodes (exec : PipelineNodeSpec → Except String String) :
    List PipelineNodeSpec → List RunEvent
  | [] => [RunEvent.run_completed]
  | n :: rest =>
    RunEvent.node_started n.id n.type ::
    match exec n with
    | Except.ok ans =>
      (if n.type = "agent" then (streamChunks ans).map (RunEvent.node_token n.id) else []) ++
        (RunEvent.node_completed n.id n.type :: runNodes exec rest)
    | Except.error msg =>
      let m := if msg = "" then n.id ++ " execution failed" else msg
      [RunEvent.node_failed n.id n.type m, RunEvent.run_failed m]

/-- Source `PipelineRuntime.run_stream` (pause signal absent, event
payloads reduced as in `RunEvent`): emit `run_started`, then either the
single `run_failed` carrying the `_topological_order` error, or the node
loop which ends in `run_completed`. -/
def runStream (exec : PipelineNodeSpec → Except String String) (spec : PipelineRunSpec) :
    List RunEvent :=
  RunEvent.run_started ::
    match topologicalOrder spec.nodes spec.edges with
    | Except.error e => [RunEvent.run_failed e]
    | Except.ok ordered => runNodes exec ordered

/-- The node ids of the `node_started` events, in emission order. -/
def startedIds (events : List RunEvent) : List String :=
  events.filterMap (fun ev => match ev with
    | RunEvent.node_started i _ => some i
    | _ => none)

/-- Edge relation of an edge list. -/
def edgeRel (edges : List PipelineEdgeSpec) (a b : String) : Prop :=
  ∃ e ∈ edges, e.source = a ∧ e.target = b

/-- The edge set has a (nonempty) directed cycle. -/
def HasCycle (edges : List PipelineEdgeSpec) : Prop :=
  ∃ a l, List.Chain (edgeRel edges) a (l ++ [a])

/-- The edge set is acyclic, witnessed by an arrangement in which every
edge points forward. -/
def IsDag (edges : List PipelineEdgeSpec) : Prop :=
  ∃ order : List String, ∀ e ∈ edges, order.indexOf e.source < order.indexOf e.target

/-- A run spec that fails graph validation: a repeated node id, an edge
endpoint naming an undeclared node, or a cycle. -/
def GraphInvalid (spec : PipelineRunSpec) : Prop :=
  ¬ (spec.nodes.map PipelineNodeSpec.id).Nodup ∨
    (∃ e ∈ spec.edges, e.source ∉ spec.nodes.map PipelineNodeSpec.id ∨
      e.target ∉ spec.nodes.map PipelineNodeSpec.id) ∨
    HasCycle spec.edges

/-! ## Claim-support definitions -/

/-- The descending-score, ascending-chunk-id order of the cross-document
merge, as a relation on evidence chunks (`strLe` is code-point string
order, Python's). -/
def storeRank (a b : EvidenceChunk) : Prop :=
  b.score < a.score ∨ (a.score = b.score ∧ strLe a.chunk_id b.chunk_id)

/-- The fallback sort order: descending overlap score, then ascending
document id, page key and chunk id. -/
def fallbackRank (a b : EvidenceChunk) : Prop :=
  b.score < a.score ∨ (a.score = b.score ∧
    (strLtB a.document_id b.document_id = true ∨ (a.document_id = b.document_id ∧
      (fallbackPageKey a < fallbackPageKey b ∨ (fallbackPageKey a = fallbackPageKey b ∧
        strLe a.chunk_id b.chunk_id)))))

/-- One-chunk document index for the C6 counterexample. -/
def c6Index : Bm25Index :=
  { document_id := "d1", signature := "sig", chunk_records := [
    { chunk_id := "c1", document_id := "d1", page_number := 0, chunk_index := 0,
      token_count := 2, citation_span := "", text := "hello world", bounding_box := [] }] }

/-- Registry holding only `c6Index`. -/
def c6Store : Bm25IndexStore :=
  { indexes := [("d1", c6Index)] }

/-- The single evidence chunk the C6 counterexample search returns. -/
def c6Hit : EvidenceChunk :=
  { document_id := "d1", chunk_id := "c1", page_number := some 0,
    text := "hello world", score := 1, source_tool := "bm25_search" }

/-- Stored chunk for the C10 witness context. -/
def c10Chunk : ChunkRecord :=
  { chunk_id := "c1", document_id := "d1", page_number := 0, chunk_index := 0,
    token_count := 2, citation_span := "", text := "hello world", bounding_box := [] }

/-- Page text for the C10 witness context. -/
def c10Page : PageText :=
  { page_number := 0, lines := ["hello world"], line_count := 1 }

/-- Document info for the C10 witness context. -/
def c10Info : DocumentInfo :=
  { document_id := "d1", filename := "f.txt", page_count := 1 }

/-- C10 witness context: one stored document with one chunk and an empty
BM25 registry (so the index store finds nothing). -/
def c10Ctx : SynextraCtx :=
  { document_store := { pagesMap := [("d1", [c10Page])], infoMap := [("d1", c10Info)] },
    list_chunks := fun did => if did = "d1" then [c10Chunk] else [],
    bm25_store := { indexes := [] } }

/-- C8 counterexample request: a BM25 sub-query that has results next to a
read of an absent page. -/
def c8Req : PipelineParallelSearchRequest :=
  { query := "hello",
    queries := [ParallelQuerySpec.search "hello" 8 none,
      ParallelQuerySpec.readDoc 99 none none (some "d1")] }

/-- C8 witness request: both sub-operations succeed. -/
def c8OkReq : PipelineParallelSearchRequest :=
  { query := "hello",
    queries := [ParallelQuerySpec.search "hello" 8 none,
      ParallelQuerySpec.readDoc 0 none none (some "d1")] }

/-- C7 counterexample spec: a single read node. -/
def c7Spec : PipelineRunSpec :=
  { nodes := [{ id := "r1", type := "read_document" }], edges := [], query := "q" }

/-- C7 counterexample executor: the read node reads an absent page of the
witness context's document. -/
def c7Exec : PipelineNodeSpec → Except String String := fun n =>
  if n.id = "r1" then
    (PipelineRuntime.read_document c10Ctx 99 none none (some "d1")).map (fun _ => "")
  else Except.ok ""

/-- Recognizer for `node_failed` events. -/
def isNodeFailedB : RunEvent → Bool
  | RunEvent.node_failed _ _ _ => true
  | _ => false

/-- 160 characters shared by the two C9 counterexample texts. -/
def c9Base : String := String.mk (List.replicate 160 'a')

/-- First C9 chunk: the shared 160-character opening plus a distinct tail. -/
def c9ChunkA : EvidenceChunk :=
  { document_id := "d", chunk_id := "c1", page_number := some 1,
    text := c9Base ++ " alpha", score := 1, source_tool := "bm25_search" }

/-- Second C9 chunk: same document, different chunk id and tail. -/
def c9ChunkB : EvidenceChunk :=
  { document_id := "d", chunk_id := "c2", page_number := some 1,
    text := c9Base ++ " beta", score := 1, source_tool := "bm25_search" }

/-- C9 evidence list: two same-document near-duplicates. -/
def c9Evidence : List EvidenceChunk := [c9ChunkA, c9ChunkB]

/-- The citation either builder makes from an evidence chunk. -/
def citationOf (c : EvidenceChunk) : RagCitation :=
  { document_id := c.document_id, chunk_id := c.chunk_id,
    page_number := c.page_number, supporting_quote := truncateQuote c.text,
    source_tool := c.source_tool, score := c.score }

/-- The merged, deduplicated evidence `run_agent` works over. -/
def mergedEvidence (request : PipelineAgentRunRequest)
    (toolEvidence : List EvidenceChunk) : List EvidenceChunk :=
  dedupeEvidence (request.evidence ++ toolEvidence)

/-- The envelope `run_agent` returns when `_generate_model_answer` comes
back with an empty answer and a model error (C4's situation). -/
def runAgentFailureEnv (request : PipelineAgentRunRequest)
    (toolEvidence : List EvidenceChunk) (executedTools : List String)
    (merr : String) : PipelineAgentOutputEnvelope :=
  PipelineRuntime.run_agent request toolEvidence executedTools "" (some merr)

/-- The `if marker not in tools: tools.append(marker)` step of `run_agent`. -/
def ensureElem (x : String) (l : List String) : List String :=
  if x ∈ l then l else l ++ [x]

/-- Count of edges into `i` whose source is in `P`: what the algorithm has
subtracted from `indegree[i]` after processing the nodes of `P`. -/
def inFrom (edges : List PipelineEdgeSpec) (P : List String) (i : String) : Nat :=
  ((edges.filter (fun e => e.target == i)).filter (fun e => decide (e.source ∈ P))).length

/-- Count of `x → i` edges. -/
def countOut (edges : List PipelineEdgeSpec) (x i : String) : Nat :=
  ((edges.filter (fun e => e.target == i)).filter (fun e => e.source == x)).length

/-- The loop invariant of Kahn's algorithm as run by `_topological_order`:
`P` is the emitted order so far, `q` the pending queue, `d` the current
indegree table. -/
structure KahnInv (edges : List PipelineEdgeSpec) (ids : List String)
    (P q : List String) (d : String → Int) : Prop where
  nodupPQ : (P ++ q).Nodup
  memPQ : ∀ x ∈ P ++ q, x ∈ ids
  deg : ∀ i, d i = indegreeOf edges i - (inFrom edges P i : Int)
  donePQ : ∀ x ∈ P ++ q, d x ≤ 0
  complete : ∀ i ∈ ids, (∀ e ∈ edges, e.target = i → e.source ∈ P) → i ∈ P ++ q
  edgeDone : ∀ e ∈ edges, e.target ∈ P →
    e.source ∈ P ∧ P.indexOf e.source < P.indexOf e.target

/-- `j` is ready once the nodes of `done` have executed: every edge into
`j` has its source in `done`. -/
def readyAt (edges : List PipelineEdgeSpec) (done : List String) (j : String) : Bool :=
  edges.all (fun e => e.target != j || done.contains e.source)

/-- The claimed global tie-break policy: at every position the executed
node's id is `≤` every declared node that is ready but not yet executed. -/
def smallestReadyFirst (spec : PipelineRunSpec) (o : List String) : Prop :=
  ∀ k, (hk : k < o.length) → ∀ j ∈ spec.nodes.map PipelineNodeSpec.id,
    j ∉ o.take k → readyAt spec.edges (o.take k) j = true →
    strLeB (o.get ⟨k, hk⟩) j = true

/-- C1 witness spec: three nodes, one edge. -/
def c1Spec : PipelineRunSpec :=
  { nodes := [{ id := "b", type := "agent" }, { id := "c", type := "read_document" },
      { id := "a", type := "bm25_search" }],
    edges := [{ source := "b", target := "a" }], query := "q" }

/-- C2 counterexample spec: a two-node cycle. -/
def c2Spec : PipelineRunSpec :=
  { nodes := [{ id := "a", type := "agent" }, { id := "b", type := "agent" }],
    edges := [{ source := "a", target := "b" }, { source := "b", target := "a" }],
    query := "q" }

/-- C3 counterexample spec: nodes `b`, `c`, `a` with the single edge
`b → a`, so that `a` becomes ready right after `b` but is executed after
`c`. -/
def c3Spec : PipelineRunSpec :=
  { nodes := [{ id := "b", type := "agent" }, { id := "c", type := "read_document" },
      { id := "a", type := "bm25_search" }],
    edges := [{ source := "b", target := "a" }], query := "q" }

/-! ## Order lemmas for the Python comparators -/

theorem charLtB_cons_iff (x y : Char) (xs ys : List Char) :
    charLtB (x :: xs) (y :: ys) = true ↔
      (x.toNat < y.toNat ∨ (x.toNat = y.toNat ∧ charLtB xs ys = true)) := by
  simp only [charLtB]
  split_ifs with h1 h2
  · simp [h1]
  · simp
    omega
  · have hxy : x.toNat = y.toNat := by omega
    simp [hxy]

theorem charLtB_trans : ∀ {a b c : List Char}, charLtB a b = true → charLtB b c = true →
    charLtB a c = true := by
  intro a
  induction a with
  | nil =>
    intro b c hab hbc
    cases b with
    | nil => simp [charLtB] at hab
    | cons y ys =>
      cases c with
      | nil => simp [charLtB] at hbc
      | cons z zs => simp [charLtB]
  | cons x xs ih =>
    intro b c hab hbc
    cases b with
    | nil => simp [charLtB] at hab
    | cons y ys =>
      cases c with
      | nil => simp [charLtB] at hbc
      | cons z zs =>
        rw [charLtB_cons_iff] at hab hbc ⊢
        rcases hab with h1 | ⟨e1, r1⟩ <;> rcases hbc with h2 | ⟨e2, r2⟩
        · left
          omega
        · left
          omega
        · left
          omega
        · exact Or.inr ⟨by omega, ih r1 r2⟩

theorem charLtB_asymm : ∀ {a b : List Char}, charLtB a b = true → charLtB b a = false := by
  intro a
  induction a with
  | nil =>
    intro b hab
    cases b with
    | nil => simp [charLtB] at hab
    | cons y ys => simp [charLtB]
  | cons x xs ih =>
    intro b hab
    cases b with
    | nil => simp [charLtB] at hab
    | cons y ys =>
      rw [charLtB_cons_iff] at hab
      rw [Bool.eq_false_iff]
      intro hba
      rw [charLtB_cons_iff] at hba
      rcases hab with h1 | ⟨e1, r1⟩ <;> rcases hba with h2 | ⟨e2, r2⟩
      · omega
      · omega
      · omega
      · rw [ih r1] at r2
        exact Bool.false_ne_true r2

theorem charLtB_eq_of_not : ∀ {a b : List Char}, charLtB a b = false → charLtB b a = false →
    a = b := by
  intro a
  induction a with
  | nil =>
    intro b hab _
    cases b with
    | nil => rfl
    | cons y ys => simp [charLtB] at hab
  | cons x xs ih =>
    intro b hab hba
    cases b with
    | nil => simp [charLtB] at hba
    | cons y ys =>
      have hab2 : ¬ (x.toNat < y.toNat ∨ (x.toNat = y.toNat ∧ charLtB xs ys = true)) := by
        rw [← charLtB_cons_iff]
        simp [hab]
      have hba2 : ¬ (y.toNat < x.toNat ∨ (y.toNat = x.toNat ∧ charLtB ys xs = true)) := by
        rw [← charLtB_cons_iff]
        simp [hba]
      clear hab hba
      rename' hab2 => hab, hba2 => hba
      have hxy : x.toNat = y.toNat := by
        by_contra hne
        rcases Nat.lt_or_ge x.toNat y.toNat with h | h
        · exact hab (Or.inl h)
        · rcases Nat.lt_or_ge y.toNat x.toNat with h2 | h2
          · exact hba (Or.inl h2)
          · omega
      have hx : x = y := Char.eq_of_val_eq (UInt32.ext hxy)
      have hxs : charLtB xs ys = false := by
        rcases Bool.eq_false_or_eq_true (charLtB xs ys) with h | h
        · exact absurd (Or.inr ⟨hxy, h⟩) hab
        · exact h
      have hys : charLtB ys xs = false := by
        rcases Bool.eq_false_or_eq_true (charLtB ys xs) with h | h
        · exact absurd (Or.inr ⟨hxy.symm, h⟩) hba
        · exact h
      rw [hx, ih hxs hys]

theorem orB_elim {a b : Bool} (h : (a || b) = true) : a = true ∨ b = true := by
  rcases Bool.eq_false_or_eq_true a with ha | ha
  · exact Or.inl ha
  · rw [ha] at h
    simp only [Bool.false_or] at h
    exact Or.inr h

theorem strEq_of_not_ltB {a b : String} (h1 : strLtB a b = false) (h2 : strLtB b a = false) :
    a = b := by
  have h := charLtB_eq_of_not (a := a.toList) (b := b.toList) h1 h2
  cases a
  cases b
  exact congrArg String.mk h

theorem strLeB_trans {a b c : String} (hab : strLeB a b = true) (hbc : strLeB b c = true) :
    strLeB a c = true := by
  simp only [strLeB, strLtB, Bool.not_eq_true'] at hab hbc ⊢
  rcases Bool.eq_false_or_eq_true (charLtB c.toList a.toList) with h | h
  · rcases Bool.eq_false_or_eq_true (charLtB a.toList b.toList) with h2 | h2
    · have h3 := charLtB_trans h h2
      rw [hbc] at h3
      exact absurd h3 Bool.false_ne_true
    · have hone : a = b := strEq_of_not_ltB h2 hab
      rw [hone] at h
      rw [hbc] at h
      exact absurd h Bool.false_ne_true
  · exact h

theorem strLeB_total (a b : String) : (strLeB a b || strLeB b a) = true := by
  simp only [strLeB, strLtB, Bool.or_eq_true, Bool.not_eq_true']
  rcases Bool.eq_false_or_eq_true (charLtB b.toList a.toList) with h | h
  · exact Or.inr (charLtB_asymm h)
  · exact Or.inl h

theorem descLexB_trans {α β : Type} [LinearOrder β] (key : α → β) (restB : α → α → Bool)
    (hrest : ∀ a b c, restB a b = true → restB b c = true → restB a c = true) :
    ∀ a b c, descLexB key restB a b = true → descLexB key restB b c = true →
      descLexB key restB a c = true := by
  intro a b c hab hbc
  simp only [descLexB, Bool.or_eq_true, Bool.and_eq_true, decide_eq_true_eq] at *
  rcases hab with h1 | ⟨e1, r1⟩ <;> rcases hbc with h2 | ⟨e2, r2⟩
  · exact Or.inl (lt_trans h2 h1)
  · exact Or.inl (e2 ▸ h1)
  · exact Or.inl (e1 ▸ h2)
  · exact Or.inr ⟨e1.trans e2, hrest a b c r1 r2⟩

theorem descLexB_total {α β : Type} [LinearOrder β] (key : α → β) (restB : α → α → Bool)
    (hrest : ∀ a b, (restB a b || restB b a) = true) :
    ∀ a b, (descLexB key restB a b || descLexB key restB b a) = true := by
  intro a b
  simp only [descLexB, Bool.or_eq_true, Bool.and_eq_true, decide_eq_true_eq]
  rcases lt_trichotomy (key a) (key b) with h | h | h
  · exact Or.inr (Or.inl h)
  · rcases orB_elim (hrest a b) with hr | hr
    · exact Or.inl (Or.inr ⟨h, hr⟩)
    · exact Or.inr (Or.inr ⟨h.symm, hr⟩)
  · exact Or.inl (Or.inl h)

theorem ascLexB_trans {α β : Type} [LinearOrder β] (key : α → β) (restB : α → α → Bool)
    (hrest : ∀ a b c, restB a b = true → restB b c = true → restB a c = true) :
    ∀ a b c, ascLexB key restB a b = true → ascLexB key restB b c = true →
      ascLexB key restB a c = true := by
  intro a b c hab hbc
  simp only [ascLexB, Bool.or_eq_true, Bool.and_eq_true, decide_eq_true_eq] at *
  rcases hab with h1 | ⟨e1, r1⟩ <;> rcases hbc with h2 | ⟨e2, r2⟩
  · exact Or.inl (lt_trans h1 h2)
  · exact Or.inl (e2 ▸ h1)
  · exact Or.inl (e1.symm ▸ h2)
  · exact Or.inr ⟨e1.trans e2, hrest a b c r1 r2⟩

theorem ascLexB_total {α β : Type} [LinearOrder β] (key : α → β) (restB : α → α → Bool)
    (hrest : ∀ a b, (restB a b || restB b a) = true) :
    ∀ a b, (ascLexB key restB a b || ascLexB key restB b a) = true := by
  intro a b
  simp only [ascLexB, Bool.or_eq_true, Bool.and_eq_true, decide_eq_true_eq]
  rcases lt_trichotomy (key a) (key b) with h | h | h
  · exact Or.inl (Or.inl h)
  · rcases orB_elim (hrest a b) with hr | hr
    · exact Or.inl (Or.inr ⟨h, hr⟩)
    · exact Or.inr (Or.inr ⟨h.symm, hr⟩)
  · exact Or.inr (Or.inl h)

theorem strLexB_trans {α : Type} (key : α → String) (restB : α → α → Bool)
    (hrest : ∀ a b c, restB a b = true → restB b c = true → restB a c = true) :
    ∀ a b c, strLexB key restB a b = true → strLexB key restB b c = true →
      strLexB key restB a c = true := by
  intro a b c hab hbc
  simp only [strLexB, Bool.or_eq_true, Bool.and_eq_true, decide_eq_true_eq] at *
  rcases hab with h1 | ⟨e1, r1⟩ <;> rcases hbc with h2 | ⟨e2, r2⟩
  · exact Or.inl (charLtB_trans h1 h2)
  · exact Or.inl (e2 ▸ h1)
  · exact Or.inl (e1 ▸ h2)
  · exact Or.inr ⟨e1.trans e2, hrest a b c r1 r2⟩

theorem strLexB_total {α : Type} (key : α → String) (restB : α → α → Bool)
    (hrest : ∀ a b, (restB a b || restB b a) = true) :
    ∀ a b, (strLexB key restB a b || strLexB key restB b a) = true := by
  intro a b
  simp only [strLexB, Bool.or_eq_true, Bool.and_eq_true, decide_eq_true_eq]
  rcases Bool.eq_false_or_eq_true (strLtB (key a) (key b)) with h | h
  · exact Or.inl (Or.inl h)
  · rcases Bool.eq_false_or_eq_true (strLtB (key b) (key a)) with h2 | h2
    · exact Or.inr (Or.inl h2)
    · have he : key a = key b := strEq_of_not_ltB h h2
      rcases orB_elim (hrest a b) with hr | hr
      · exact Or.inl (Or.inr ⟨he, hr⟩)
      · exact Or.inr (Or.inr ⟨he.symm, hr⟩)

theorem sortByB_pairwise {α : Type} (leB : α → α → Bool)
    (htrans : ∀ a b c, leB a b = true → leB b c = true → leB a c = true)
    (htotal : ∀ a b, (leB a b || leB b a) = true) (l : List α) :
    List.Pairwise (fun a b => leB a b = true) (sortByB leB l) := by
  haveI : IsTotal α (fun a b => leB a b = true) := ⟨fun a b => by
    rcases orB_elim (htotal a b) with h | h
    · exact Or.inl h
    · exact Or.inr h⟩
  haveI : IsTrans α (fun a b => leB a b = true) := ⟨fun a b c => htrans a b c⟩
  exact List.sorted_insertionSort _ l

theorem sortByB_perm {α : Type} (leB : α → α → Bool) (l : List α) :
    (sortByB leB l).Perm l :=
  List.perm_insertionSort _ l

theorem storeLeB_trans : ∀ a b c, storeLeB a b = true → storeLeB b c = true →
    storeLeB a c = true :=
  descLexB_trans _ _ (fun _ _ _ hab hbc => strLeB_trans hab hbc)

theorem storeLeB_total : ∀ a b, (storeLeB a b || storeLeB b a) = true :=
  descLexB_total _ _ (fun _ _ => strLeB_total _ _)

theorem idxLeB_trans : ∀ a b c, idxLeB a b = true → idxLeB b c = true →
    idxLeB a c = true :=
  descLexB_trans _ _ (fun a b c hab hbc => by
    simp only [decide_eq_true_eq] at *
    omega)

theorem idxLeB_total : ∀ a b, (idxLeB a b || idxLeB b a) = true :=
  descLexB_total _ _ (fun a b => by
    simp only [Bool.or_eq_true, decide_eq_true_eq]
    omega)

theorem fallbackLeB_trans : ∀ a b c, fallbackLeB a b = true → fallbackLeB b c = true →
    fallbackLeB a c = true :=
  descLexB_trans _ _ (strLexB_trans _ _ (ascLexB_trans _ _
    (fun _ _ _ hab hbc => strLeB_trans hab hbc)))

theorem fallbackLeB_total : ∀ a b, (fallbackLeB a b || fallbackLeB b a) = true :=
  descLexB_total _ _ (strLexB_total _ _ (ascLexB_total _ _
    (fun _ _ => strLeB_total _ _)))

/-! ## C6: properties of `Bm25IndexStore.search` -/

theorem storeLeB_iff_storeRank (a b : EvidenceChunk) :
    storeLeB a b = true ↔ storeRank a b := by
  simp only [storeLeB, descLexB, storeRank, strLe, Bool.or_eq_true, Bool.and_eq_true,
    decide_eq_true_eq]

theorem flatMap_eq_nil_of {α β : Type} (f : α → List β) (l : List α)
    (h : ∀ x ∈ l, f x = []) : l.flatMap f = [] := by
  induction l with
  | nil => rfl
  | cons a as ih =>
    simp only [List.flatMap_cons, h a (List.mem_cons_self a as)]
    exact ih (fun x hx => h x (List.mem_cons_of_mem a hx))

theorem index_search_score_pos (idf : String → ℚ) (index : Bm25Index) (query : String)
    (topK : Int) : ∀ c ∈ Bm25Index.search idf index query topK, 0 < c.score := by
  intro c hc
  simp only [Bm25Index.search, List.mem_filterMap] at hc
  obtain ⟨p, _, hify⟩ := hc
  by_cases hle : p.2 ≤ 0
  · simp [hle] at hify
  · simp only [hle, if_false] at hify
    have hsc : c.score = p.2 := by
      cases hify
      rfl
    rw [hsc]
    exact lt_of_not_ge hle

theorem bm25Score_empty_tokens (idf : String → ℚ) (docs : List (List String)) (query : String)
    (h : tokenize query = []) : bm25Score idf docs query = docs.map (fun _ => 0) := by
  simp [bm25Score, h]

theorem index_search_empty_tokens (idf : String → ℚ) (index : Bm25Index) (query : String)
    (topK : Int) (h : tokenize query = []) :
    Bm25Index.search idf index query topK = [] := by
  simp only [Bm25Index.search]
  apply List.filterMap_eq_nil.mpr
  intro p hp
  have hp2 : p ∈ sortByB idxLeB (bm25Score idf
      (index.chunk_records.map (fun c => tokenize c.text)) query).enum :=
    (List.take_sublist _ _).subset hp
  have hp3 : p ∈ (bm25Score idf (index.chunk_records.map (fun c => tokenize c.text))
      query).enum := (sortByB_perm _ _).subset hp2
  have hscore : p.2 = 0 := by
    obtain ⟨i, s⟩ := p
    obtain ⟨hi, hs⟩ := List.mem_enum hp3
    have hget : (bm25Score idf (List.map (fun c => tokenize c.text) index.chunk_records)
        query)[i]? = some s := by
      rw [List.getElem?_eq_getElem hi]
      exact congrArg some hs.symm
    rw [bm25Score_empty_tokens idf _ query h, List.getElem?_map] at hget
    cases hx : (List.map (fun c => tokenize c.text) index.chunk_records)[i]? with
    | none => rw [hx] at hget; simp at hget
    | some d =>
      rw [hx] at hget
      exact (Option.some_inj.mp hget).symm
  rw [hscore]
  simp

theorem store_search_mem_pos (idf : String → ℚ) (store : Bm25IndexStore) (query : String)
    (topK : Int) (documentIds : Option (List String)) :
    ∀ c ∈ Bm25IndexStore.search idf store query topK documentIds, 0 < c.score := by
  intro c hc
  simp only [Bm25IndexStore.search] at hc
  have hc2 := (List.take_sublist _ _).subset hc
  have hc3 := (sortByB_perm _ _).subset hc2
  simp only [List.mem_flatMap] at hc3
  obtain ⟨did, _, hmem⟩ := hc3
  cases hfind : (store.indexes.lookup did) with
  | none => rw [hfind] at hmem; simp at hmem
  | some index =>
    rw [hfind] at hmem
    exact index_search_score_pos idf index query topK c hmem

/-- C6 (amended): every search result of the BM25 index store contains only
strictly positive scores, is ordered by descending score with ties broken
by ascending chunk id, and has at most `max 1 topK` entries; a query with
no alphanumeric tokens yields the empty result. -/
theorem bm25_store_search_spec (idf : String → ℚ) (store : Bm25IndexStore) (query : String)
    (topK : Int) (documentIds : Option (List String)) :
    (Bm25IndexStore.search idf store query topK documentIds).length ≤ (max 1 topK).toNat ∧
    List.Pairwise storeRank (Bm25IndexStore.search idf store query topK documentIds) ∧
    (∀ c ∈ Bm25IndexStore.search idf store query topK documentIds, 0 < c.score) ∧
    ((tokenize query).isEmpty = false ∨
      Bm25IndexStore.search idf store query topK documentIds = []) := by
  refine ⟨?_, ?_, store_search_mem_pos idf store query topK documentIds, ?_⟩
  · simp only [Bm25IndexStore.search]
    exact List.length_take_le _ _
  · simp only [Bm25IndexStore.search]
    have hsorted := sortByB_pairwise storeLeB storeLeB_trans storeLeB_total
      ((match documentIds with
        | some (x :: xs) => x :: xs
        | _ => sortByB strLeB (store.indexes.map Prod.fst)).flatMap (fun did =>
          match store.indexes.lookup did with
          | none => []
          | some index => Bm25Index.search idf index query topK))
    have hsub := List.Pairwise.sublist (List.take_sublist (max 1 topK).toNat _) hsorted
    exact hsub.imp (fun h => (storeLeB_iff_storeRank _ _).mp h)
  · by_cases htok : tokenize query = []
    · right
      simp only [Bm25IndexStore.search]
      have hnil : (match documentIds with
        | some (x :: xs) => x :: xs
        | _ => sortByB strLeB (store.indexes.map Prod.fst)).flatMap (fun did =>
          match store.indexes.lookup did with
          | none => []
          | some index => Bm25Index.search idf index query topK) = [] := by
        apply flatMap_eq_nil_of
        intro did _
        cases hfind : (store.indexes.lookup did) with
        | none => simp
        | some index =>
          simp only []
          exact index_search_empty_tokens idf index query topK htok
      rw [hnil]
      simp [sortByB]
    · left
      simp [List.isEmpty_iff, htok]

theorem c6_score : bm25Score (fun _ => 1) [["hello", "world"]] "hello" = [1] := by
  have htok : tokenize "hello" = ["hello"] := by decide
  simp [bm25Score, htok, bm25K1, bm25B]
  norm_num

theorem c6_index_search : Bm25Index.search (fun _ => 1) c6Index "hello" 0 = [c6Hit] := by
  have htok : tokenize "hello world" = ["hello", "world"] := by decide
  simp only [Bm25Index.search, c6Index, List.map_cons, List.map_nil, htok, c6_score]
  norm_num [sortByB, List.insertionSort, List.enum, List.filterMap_cons, List.filterMap_nil,
    c6Hit]

theorem c6_store_indexes : c6Store.indexes = [("d1", c6Index)] := rfl

/-- C6 counterexample: with `topK = 0` the store still returns one chunk of
positive score (the source truncates to `max(1, top_k)`), so the claimed
bound "length at most topK" fails. -/
theorem bm25_store_search_topk_zero_cex :
    ¬ ((Bm25IndexStore.search (fun _ => 1) c6Store "hello" 0 none).length ≤ (0 : Int).toNat) := by
  have hsearch : Bm25IndexStore.search (fun _ => 1) c6Store "hello" 0 none = [c6Hit] := by
    simp only [Bm25IndexStore.search, c6_store_indexes]
    norm_num [sortByB, List.insertionSort, c6_index_search, List.flatMap_cons, List.flatMap_nil,
      List.lookup]
  rw [hsearch]
  norm_num

/-! ## C10: the silent lexical fallback of `PipelineRuntime.bm25_search` -/

theorem fallbackScored_mem (ctx : SynextraCtx) (query : String)
    (documentIds : Option (List String)) :
    ∀ p ∈ fallbackScored ctx query documentIds, ∃ chunk : ChunkRecord,
      (∃ did ∈ fallbackCandidates ctx documentIds, chunk ∈ ctx.list_chunks did) ∧
      p.1 = lexicalOverlap query chunk.text ∧
      p.2 = fallbackEvidenceOf (lexicalOverlap query chunk.text) chunk ∧
      0 < lexicalOverlap query chunk.text := by
  intro p hp
  simp only [fallbackScored, List.mem_flatMap, List.mem_filterMap] at hp
  obtain ⟨did, hdid, chunk, hchunk, hify⟩ := hp
  by_cases hov : lexicalOverlap query chunk.text = 0
  · simp [hov] at hify
  · simp only [hov, if_neg, if_false] at hify
    have hpair := Option.some_inj.mp hify
    refine ⟨chunk, ⟨did, hdid, hchunk⟩, ?_, ?_, Nat.pos_of_ne_zero hov⟩
    · rw [← hpair]
    · rw [← hpair]

theorem fallbackLeB_rank {p q : Nat × EvidenceChunk} (hp : p.2.score = (p.1 : ℚ))
    (hq : q.2.score = (q.1 : ℚ)) (h : fallbackLeB p q = true) : fallbackRank p.2 q.2 := by
  simp only [fallbackLeB, descLexB, strLexB, ascLexB, Bool.or_eq_true, Bool.and_eq_true,
    decide_eq_true_eq] at h
  simp only [fallbackRank, hp, hq, strLe]
  rcases h with h | ⟨e, hrest⟩
  · left
    exact_mod_cast h
  · right
    exact ⟨by exact_mod_cast e, hrest⟩

/-- C10: when the BM25 index store returns no evidence for a non-empty
stripped query, `bm25_search` substitutes the lexical fallback; the
fallback's result is bounded by `max 1 topK`, ordered by descending
overlap with ties broken by ascending document id, page key and chunk id,
and every returned chunk is a stored chunk of a candidate document scored
by its positive count of distinct shared query tokens, reported with
`source_tool = "bm25_search"` and that count as the score. -/
theorem bm25_search_fallback_spec (idf : String → ℚ) (ctx : SynextraCtx) (query : String)
    (topK : Int) (documentIds : Option (List String))
    (hprompt : stripStr query ≠ "")
    (hraw : Bm25IndexStore.search idf ctx.bm25_store (stripStr query) topK none = []) :
    PipelineRuntime.bm25_search idf ctx query topK documentIds =
      PipelineRuntime.fallback_lexical_bm25 ctx (stripStr query) topK documentIds ∧
    (PipelineRuntime.fallback_lexical_bm25 ctx (stripStr query) topK documentIds).length ≤
      (max 1 topK).toNat ∧
    List.Pairwise fallbackRank
      (PipelineRuntime.fallback_lexical_bm25 ctx (stripStr query) topK documentIds) ∧
    (∀ c ∈ PipelineRuntime.fallback_lexical_bm25 ctx (stripStr query) topK documentIds,
      ∃ chunk : ChunkRecord,
        (∃ did ∈ fallbackCandidates ctx documentIds, chunk ∈ ctx.list_chunks did) ∧
        c = fallbackEvidenceOf (lexicalOverlap (stripStr query) chunk.text) chunk ∧
        0 < lexicalOverlap (stripStr query) chunk.text) := by
  refine ⟨?_, ?_, ?_, ?_⟩
  · simp only [PipelineRuntime.bm25_search, hraw]
    cases documentIds with
    | none => simp [hprompt]
    | some ids =>
      cases ids with
      | nil => simp [hprompt]
      | cons x xs => simp [hprompt]
  · by_cases ht : tokenizeSearch (stripStr query) = []
    · simp [PipelineRuntime.fallback_lexical_bm25, ht]
    · simp only [PipelineRuntime.fallback_lexical_bm25, if_neg ht]
      rw [List.length_map]
      exact List.length_take_le _ _
  · by_cases ht : tokenizeSearch (stripStr query) = []
    · simp [PipelineRuntime.fallback_lexical_bm25, ht]
    · simp only [PipelineRuntime.fallback_lexical_bm25, if_neg ht]
      rw [List.pairwise_map]
      have hsorted := sortByB_pairwise fallbackLeB fallbackLeB_trans fallbackLeB_total
        (fallbackScored ctx (stripStr query) documentIds)
      have hsub := List.Pairwise.sublist (List.take_sublist (max 1 topK).toNat _) hsorted
      refine hsub.imp_of_mem ?_
      intro p q hpmem hqmem hle
      have hp := fallbackScored_mem ctx (stripStr query) documentIds p
        (((sortByB_perm _ _).subset) ((List.take_sublist _ _).subset hpmem))
      have hq := fallbackScored_mem ctx (stripStr query) documentIds q
        (((sortByB_perm _ _).subset) ((List.take_sublist _ _).subset hqmem))
      obtain ⟨cp, _, hp1, hp2, _⟩ := hp
      obtain ⟨cq, _, hq1, hq2, _⟩ := hq
      refine fallbackLeB_rank ?_ ?_ hle
      · rw [hp2, hp1]
        rfl
      · rw [hq2, hq1]
        rfl
  · by_cases ht : tokenizeSearch (stripStr query) = []
    · simp [PipelineRuntime.fallback_lexical_bm25, ht]
    · simp only [PipelineRuntime.fallback_lexical_bm25, if_neg ht]
      intro c hc
      simp only [List.mem_map] at hc
      obtain ⟨p, hpmem, hpc⟩ := hc
      have hp := fallbackScored_mem ctx (stripStr query) documentIds p
        (((sortByB_perm _ _).subset) ((List.take_sublist _ _).subset hpmem))
      obtain ⟨chunk, hsrc, _, hp2, hpos⟩ := hp
      exact ⟨chunk, hsrc, by rw [← hpc, hp2], hpos⟩

/-- C10 witness: a concrete non-empty query on a context whose BM25
registry is empty, discharging both hypotheses of the fallback theorem. -/
theorem bm25_search_fallback_witness :
    stripStr " hello " ≠ "" ∧
    Bm25IndexStore.search (fun _ => 1) c10Ctx.bm25_store (stripStr " hello ") 3 none = [] ∧
    PipelineRuntime.bm25_search (fun _ => 1) c10Ctx " hello " 3 none =
      PipelineRuntime.fallback_lexical_bm25 c10Ctx (stripStr " hello ") 3 none :=
  ⟨by decide, by decide,
    (bm25_search_fallback_spec (fun _ => 1) c10Ctx " hello " 3 none (by decide) (by decide)).1⟩

/-! ## C8: `parallel_search` fan-out and deduplication -/

theorem dedupeEvidenceAux_sublist (seen : List (String × String)) (l : List EvidenceChunk) :
    (dedupeEvidenceAux seen l).Sublist l := by
  induction l generalizing seen with
  | nil => simp [dedupeEvidenceAux]
  | cons c cs ih =>
    simp only [dedupeEvidenceAux]
    by_cases hmem : (c.document_id, c.chunk_id) ∈ seen
    · simp only [if_pos hmem]
      exact (ih seen).cons c
    · simp only [if_neg hmem]
      exact (ih _).cons₂ c

theorem dedupeEvidenceAux_not_seen (seen : List (String × String)) (l : List EvidenceChunk) :
    ∀ c ∈ dedupeEvidenceAux seen l, (c.document_id, c.chunk_id) ∉ seen := by
  induction l generalizing seen with
  | nil => simp [dedupeEvidenceAux]
  | cons c cs ih =>
    simp only [dedupeEvidenceAux]
    by_cases hmem : (c.document_id, c.chunk_id) ∈ seen
    · simp only [if_pos hmem]
      exact ih seen
    · simp only [if_neg hmem]
      intro x hx
      rcases List.mem_cons.mp hx with rfl | hx2
      · exact hmem
      · intro hxs
        exact ih _ x hx2 (List.mem_cons_of_mem _ hxs)

theorem dedupeEvidenceAux_keys_nodup (seen : List (String × String)) (l : List EvidenceChunk) :
    ((dedupeEvidenceAux seen l).map (fun c => (c.document_id, c.chunk_id))).Nodup := by
  induction l generalizing seen with
  | nil => simp [dedupeEvidenceAux]
  | cons c cs ih =>
    simp only [dedupeEvidenceAux]
    by_cases hmem : (c.document_id, c.chunk_id) ∈ seen
    · simp only [if_pos hmem]
      exact ih seen
    · simp only [if_neg hmem, List.map_cons]
      refine List.Pairwise.cons ?_ (ih _)
      intro k hk
      simp only [List.mem_map] at hk
      obtain ⟨x, hx, hxk⟩ := hk
      have := dedupeEvidenceAux_not_seen _ _ x hx
      rw [← hxk]
      intro hcontra
      exact this (by rw [← hcontra]; exact List.mem_cons_self _ _)

theorem mapM_ok_of_all_ok {α β : Type} (f : α → Except String β) (l : List α)
    (h : ∀ x ∈ l, ∃ g, f x = Except.ok g) :
    ∃ gs, l.mapM f = Except.ok gs := by
  induction l with
  | nil => exact ⟨[], rfl⟩
  | cons a as ih =>
    obtain ⟨g, hg⟩ := h a (List.mem_cons_self a as)
    obtain ⟨gs, hgs⟩ := ih (fun x hx => h x (List.mem_cons_of_mem a hx))
    refine ⟨g :: gs, ?_⟩
    rw [List.mapM_cons, hg, hgs]
    rfl

/-- C8 (amended): when every sub-operation of a `parallel_search` request
succeeds, the node collects all sub-results in input order and returns
their concatenation deduplicated by `(document_id, chunk_id)` — a sublist
of the concatenation with pairwise-distinct keys. (When a sub-operation
raises — see the counterexample — the whole node errors instead.) -/
theorem parallel_search_spec (idf : String → ℚ) (ctx : SynextraCtx)
    (request : PipelineParallelSearchRequest)
    (h : ∀ q ∈ request.queries, ∃ g, runParallelQuery idf ctx request.query q = Except.ok g) :
    ∃ groups, request.queries.mapM (runParallelQuery idf ctx request.query) =
      Except.ok groups ∧
    PipelineRuntime.parallel_search idf ctx request =
      Except.ok (dedupeEvidence groups.flatten) ∧
    ((dedupeEvidence groups.flatten).map (fun c => (c.document_id, c.chunk_id))).Nodup ∧
    (dedupeEvidence groups.flatten).Sublist groups.flatten := by
  obtain ⟨groups, hgroups⟩ := mapM_ok_of_all_ok _ _ h
  refine ⟨groups, hgroups, ?_, dedupeEvidenceAux_keys_nodup [] _,
    dedupeEvidenceAux_sublist [] _⟩
  simp only [PipelineRuntime.parallel_search, hgroups]

/-- C8 counterexample: with one healthy BM25 sub-query and one read of an
absent page, the whole `parallel_search` node errors even though the
sibling search alone has results — no per-sub-operation error payload and
no sibling results are returned. -/
theorem parallel_search_abort_cex :
    (PipelineRuntime.parallel_search (fun _ => 1) c10Ctx c8Req).isOk = false ∧
    PipelineRuntime.bm25_search (fun _ => 1) c10Ctx "hello" 8 none ≠ [] := by
  decide

/-- C8 witness: both sub-operations of `c8OkReq` succeed on the witness
context, so the amended theorem applies. -/
theorem parallel_search_spec_witness :
    (∀ q ∈ c8OkReq.queries, ∃ g,
      runParallelQuery (fun _ => 1) c10Ctx c8OkReq.query q = Except.ok g) ∧
    (∃ groups, c8OkReq.queries.mapM (runParallelQuery (fun _ => 1) c10Ctx c8OkReq.query) =
      Except.ok groups ∧
      PipelineRuntime.parallel_search (fun _ => 1) c10Ctx c8OkReq =
        Except.ok (dedupeEvidence groups.flatten) ∧
      ((dedupeEvidence groups.flatten).map (fun c => (c.document_id, c.chunk_id))).Nodup ∧
      (dedupeEvidence groups.flatten).Sublist groups.flatten) := by
  have h : ∀ q ∈ c8OkReq.queries, ∃ g,
      runParallelQuery (fun _ => 1) c10Ctx c8OkReq.query q = Except.ok g := by
    intro q hq
    rcases List.mem_cons.mp hq with rfl | hq2
    · exact ⟨_, rfl⟩
    · rcases List.mem_cons.mp hq2 with rfl | hq3
      · exact ⟨_, rfl⟩
      · cases hq3
  exact ⟨h, parallel_search_spec (fun _ => 1) c10Ctx c8OkReq h⟩

/-! ## C7: absent document/page lookups in the pipeline scheduler -/

/-- C7 (amended): in the pipeline runtime, a read of an absent document or
page is NOT a structured payload — `read_document` propagates the lookup
`ValueError`, and a node whose execution raises makes `run_stream` emit
`node_failed` for it followed by `run_failed`, aborting the run. -/
theorem read_document_absent_spec (ctx : SynextraCtx) (did : String) (page : Int)
    (sl el : Option Int) (spec : PipelineRunSpec)
    (exec : PipelineNodeSpec → Except String String) (n : PipelineNodeSpec)
    (rest : List PipelineNodeSpec) (m : String)
    (hdid : did ≠ "")
    (hread : DocumentStore.read_page ctx.document_store did page sl el = none)
    (horder : topologicalOrder spec.nodes spec.edges = Except.ok (n :: rest))
    (hexec : exec n = Except.error m)
    (hm : m ≠ "") :
    (PipelineRuntime.read_document ctx page sl el (some did)).isOk = false ∧
    runStream exec spec = [RunEvent.run_started, RunEvent.node_started n.id n.type,
      RunEvent.node_failed n.id n.type m, RunEvent.run_failed m] := by
  constructor
  · simp only [PipelineRuntime.read_document, if_neg hdid,
      RagAgentOrchestrator.run_read_document, hread]
    rfl
  · simp only [runStream, horder, runNodes, hexec, if_neg hm]

/-- C7 counterexample: a one-node pipeline whose read targets an absent
page emits a `node_failed` event and never reaches `run_completed` — the
missing page aborts the run instead of coming back as a payload. -/
theorem read_document_absent_cex :
    (runStream c7Exec c7Spec).any isNodeFailedB = true ∧
    RunEvent.run_completed ∉ runStream c7Exec c7Spec := by
  decide

/-- C7 witness: the amended theorem applied to the witness store, page 99
of document `d1`, and a one-node spec whose executor raises `boom`. -/
theorem read_document_absent_spec_witness :
    "d1" ≠ "" ∧
    DocumentStore.read_page c10Ctx.document_store "d1" 99 none none = none ∧
    topologicalOrder c7Spec.nodes c7Spec.edges = Except.ok c7Spec.nodes ∧
    "boom" ≠ "" ∧
    ((PipelineRuntime.read_document c10Ctx 99 none none (some "d1")).isOk = false ∧
     runStream (fun _ => Except.error "boom") c7Spec =
       [RunEvent.run_started, RunEvent.node_started "r1" "read_document",
        RunEvent.node_failed "r1" "read_document" "boom", RunEvent.run_failed "boom"]) :=
  ⟨by decide, by decide, rfl, by decide,
    read_document_absent_spec c10Ctx "d1" 99 none none c7Spec
      (fun _ => Except.error "boom") { id := "r1", type := "read_document" } [] "boom"
      (by decide) (by decide) rfl rfl (by decide)⟩

/-! ## C9: citation deduplication by quote fingerprint -/

theorem buildCitationsGo_qkeys (seenChunks seenQuotes : List (String × String))
    (l : List EvidenceChunk) :
    ∀ cit ∈ RagAgentOrchestrator.buildCitationsGo seenChunks seenQuotes l,
      (cit.document_id, quoteFingerprint cit.supporting_quote) ∉ seenQuotes := by
  induction l generalizing seenChunks seenQuotes with
  | nil => simp [RagAgentOrchestrator.buildCitationsGo]
  | cons c cs ih =>
    simp only [RagAgentOrchestrator.buildCitationsGo]
    by_cases h1 : (c.document_id, c.chunk_id) ∈ seenChunks
    · simp only [if_pos h1]
      exact ih _ _
    · simp only [if_neg h1]
      by_cases h2 : truncateQuote c.text = ""
      · simp only [if_pos h2]
        exact ih _ _
      · simp only [if_neg h2]
        by_cases h3 : (c.document_id, quoteFingerprint (truncateQuote c.text)) ∈ seenQuotes
        · simp only [if_pos h3]
          exact ih _ _
        · simp only [if_neg h3]
          intro cit hcit
          rcases List.mem_cons.mp hcit with rfl | htail
          · exact h3
          · intro hq
            exact ih _ _ cit htail (List.mem_cons_of_mem _ hq)

theorem buildCitationsGo_mem (seenChunks seenQuotes : List (String × String))
    (l : List EvidenceChunk) :
    ∀ cit ∈ RagAgentOrchestrator.buildCitationsGo seenChunks seenQuotes l,
      ∃ c ∈ l, cit = citationOf c := by
  induction l generalizing seenChunks seenQuotes with
  | nil => simp [RagAgentOrchestrator.buildCitationsGo]
  | cons c cs ih =>
    simp only [RagAgentOrchestrator.buildCitationsGo]
    by_cases h1 : (c.document_id, c.chunk_id) ∈ seenChunks
    · simp only [if_pos h1]
      intro cit hcit
      obtain ⟨x, hx, hcx⟩ := ih _ _ cit hcit
      exact ⟨x, List.mem_cons_of_mem _ hx, hcx⟩
    · simp only [if_neg h1]
      by_cases h2 : truncateQuote c.text = ""
      · simp only [if_pos h2]
        intro cit hcit
        obtain ⟨x, hx, hcx⟩ := ih _ _ cit hcit
        exact ⟨x, List.mem_cons_of_mem _ hx, hcx⟩
      · simp only [if_neg h2]
        by_cases h3 : (c.document_id, quoteFingerprint (truncateQuote c.text)) ∈ seenQuotes
        · simp only [if_pos h3]
          intro cit hcit
          obtain ⟨x, hx, hcx⟩ := ih _ _ cit hcit
          exact ⟨x, List.mem_cons_of_mem _ hx, hcx⟩
        · simp only [if_neg h3]
          intro cit hcit
          rcases List.mem_cons.mp hcit with rfl | htail
          · exact ⟨c, List.mem_cons_self c cs, rfl⟩
          · obtain ⟨x, hx, hcx⟩ := ih _ _ cit htail
            exact ⟨x, List.mem_cons_of_mem _ hx, hcx⟩

theorem buildCitationsGo_pairwise (seenChunks seenQuotes : List (String × String))
    (l : List EvidenceChunk) :
    List.Pairwise (fun x y => ¬(x.document_id = y.document_id ∧
      quoteFingerprint x.supporting_quote = quoteFingerprint y.supporting_quote))
      (RagAgentOrchestrator.buildCitationsGo seenChunks seenQuotes l) := by
  induction l generalizing seenChunks seenQuotes with
  | nil => simp [RagAgentOrchestrator.buildCitationsGo]
  | cons c cs ih =>
    simp only [RagAgentOrchestrator.buildCitationsGo]
    by_cases h1 : (c.document_id, c.chunk_id) ∈ seenChunks
    · simp only [if_pos h1]
      exact ih _ _
    · simp only [if_neg h1]
      by_cases h2 : truncateQuote c.text = ""
      · simp only [if_pos h2]
        exact ih _ _
      · simp only [if_neg h2]
        by_cases h3 : (c.document_id, quoteFingerprint (truncateQuote c.text)) ∈ seenQuotes
        · simp only [if_pos h3]
          exact ih _ _
        · simp only [if_neg h3]
          refine List.Pairwise.cons ?_ (ih _ _)
          rintro y hy ⟨hdoc, hfp⟩
          have hnot := buildCitationsGo_qkeys _ _ _ y hy
          exact hnot (by
            rw [← hdoc, ← hfp]
            exact List.mem_cons_self _ _)

theorem buildCitationsGo_complete (seenChunks seenQuotes : List (String × String))
    (l : List EvidenceChunk)
    (hnodup : (l.map (fun c => (c.document_id, c.chunk_id))).Nodup)
    (hdisj : ∀ c ∈ l, (c.document_id, c.chunk_id) ∉ seenChunks) :
    ∀ c ∈ l, truncateQuote c.text ≠ "" →
      (c.document_id, quoteFingerprint (truncateQuote c.text)) ∈ seenQuotes ∨
      ∃ cit ∈ RagAgentOrchestrator.buildCitationsGo seenChunks seenQuotes l,
        cit.document_id = c.document_id ∧
        quoteFingerprint cit.supporting_quote = quoteFingerprint (truncateQuote c.text) := by
  induction l generalizing seenChunks seenQuotes with
  | nil => simp
  | cons c cs ih =>
    have hkey : (c.document_id, c.chunk_id) ∉ seenChunks :=
      hdisj c (List.mem_cons_self c cs)
    rw [List.map_cons, List.nodup_cons] at hnodup
    have hnodup2 : (cs.map (fun x => (x.document_id, x.chunk_id))).Nodup := hnodup.2
    have hheadkey : ∀ x ∈ cs, (x.document_id, x.chunk_id) ≠ (c.document_id, c.chunk_id) := by
      intro x hx hcontra
      exact hnodup.1 (hcontra ▸ List.mem_map.mpr ⟨x, hx, rfl⟩)
    have hdisj2 : ∀ x ∈ cs,
        (x.document_id, x.chunk_id) ∉ (c.document_id, c.chunk_id) :: seenChunks := by
      intro x hx hmem
      rcases List.mem_cons.mp hmem with heq | hmem2
      · exact hheadkey x hx heq
      · exact hdisj x (List.mem_cons_of_mem _ hx) hmem2
    intro x hx hq
    simp only [RagAgentOrchestrator.buildCitationsGo, if_neg hkey]
    rcases List.mem_cons.mp hx with rfl | hx2
    · by_cases h3 : (x.document_id, quoteFingerprint (truncateQuote x.text)) ∈ seenQuotes
      · exact Or.inl h3
      · refine Or.inr ?_
        simp only [if_neg hq, if_neg h3]
        exact ⟨_, List.mem_cons_self _ _, rfl, rfl⟩
    · by_cases h2 : truncateQuote c.text = ""
      · simp only [if_pos h2]
        exact ih _ _ hnodup2 hdisj2 x hx2 hq
      · simp only [if_neg h2]
        by_cases h3 : (c.document_id, quoteFingerprint (truncateQuote c.text)) ∈ seenQuotes
        · simp only [if_pos h3]
          exact ih _ _ hnodup2 hdisj2 x hx2 hq
        · simp only [if_neg h3]
          rcases ih ((c.document_id, c.chunk_id) :: seenChunks)
              ((c.document_id, quoteFingerprint (truncateQuote c.text)) :: seenQuotes)
              hnodup2 hdisj2 x hx2 hq with hseen | ⟨cit, hcit, hcd, hcf⟩
          · rcases List.mem_cons.mp hseen with heq | hmem2
            · exact Or.inr ⟨_, List.mem_cons_self _ _,
                (congrArg Prod.fst heq).symm, (congrArg Prod.snd heq).symm⟩
            · exact Or.inl hmem2
          · exact Or.inr ⟨cit, List.mem_cons_of_mem _ hcit, hcd, hcf⟩

/-- C9 (amended): the ORCHESTRATOR citation builder deduplicates by quote
fingerprint: for key-distinct evidence, its citations are pairwise free of
same-document 160-character-fingerprint collisions, every citation is the
quote of some evidence chunk, and every chunk with a non-empty quote is
represented by a citation carrying its document and fingerprint. (The
PIPELINE builder has no fingerprint dedup — see the counterexample.) -/
theorem orchestrator_build_citations_spec (evidence : List EvidenceChunk)
    (hnodup : (evidence.map (fun c => (c.document_id, c.chunk_id))).Nodup) :
    List.Pairwise (fun x y => ¬(x.document_id = y.document_id ∧
      quoteFingerprint x.supporting_quote = quoteFingerprint y.supporting_quote))
      (RagAgentOrchestrator.build_citations evidence) ∧
    (∀ cit ∈ RagAgentOrchestrator.build_citations evidence, ∃ c ∈ evidence,
      cit = citationOf c) ∧
    (∀ c ∈ evidence, truncateQuote c.text ≠ "" →
      ∃ cit ∈ RagAgentOrchestrator.build_citations evidence,
        cit.document_id = c.document_id ∧
        quoteFingerprint cit.supporting_quote = quoteFingerprint (truncateQuote c.text)) := by
  refine ⟨buildCitationsGo_pairwise [] [] evidence, buildCitationsGo_mem [] [] evidence, ?_⟩
  intro c hc hq
  rcases buildCitationsGo_complete [] [] evidence hnodup (by simp) c hc hq with hseen | hex
  · cases hseen
  · exact hex

set_option maxRecDepth 8192 in
/-- C9 counterexample: the PIPELINE builder keeps two citations for two
same-document chunks whose normalized texts share a 160-character
fingerprint (they only differ in chunk id and tail), so the claimed
at-most-one-per-(document, fingerprint) property fails for it. -/
theorem pipeline_build_citations_cex :
    ¬ List.Pairwise (fun x y => ¬(x.document_id = y.document_id ∧
      quoteFingerprint x.supporting_quote = quoteFingerprint y.supporting_quote))
      (PipelineRuntime.build_citations c9Evidence) := by
  decide

set_option maxRecDepth 8192 in
/-- C9 witness: the two-chunk counterexample evidence has distinct chunk
keys, so the amended orchestrator theorem applies to it. -/
theorem orchestrator_build_citations_spec_witness :
    (c9Evidence.map (fun c => (c.document_id, c.chunk_id))).Nodup ∧
    (List.Pairwise (fun x y => ¬(x.document_id = y.document_id ∧
      quoteFingerprint x.supporting_quote = quoteFingerprint y.supporting_quote))
      (RagAgentOrchestrator.build_citations c9Evidence) ∧
    (∀ cit ∈ RagAgentOrchestrator.build_citations c9Evidence, ∃ c ∈ c9Evidence,
      cit = citationOf c) ∧
    (∀ c ∈ c9Evidence, truncateQuote c.text ≠ "" →
      ∃ cit ∈ RagAgentOrchestrator.build_citations c9Evidence,
        cit.document_id = c.document_id ∧
        quoteFingerprint cit.supporting_quote = quoteFingerprint (truncateQuote c.text))) :=
  ⟨by decide, orchestrator_build_citations_spec c9Evidence (by decide)⟩

/-! ## C4: string-joining and summary-point lemmas -/

theorem intercalate_go_acc (s : String) (as : List String) :
    ∀ acc, ∃ t, String.intercalate.go acc s as = acc ++ t := by
  induction as with
  | nil =>
    intro acc
    exact ⟨"", by simp [String.intercalate.go]⟩
  | cons a as ih =>
    intro acc
    obtain ⟨t, ht⟩ := ih (acc ++ s ++ a)
    refine ⟨s ++ a ++ t, ?_⟩
    rw [String.intercalate.go, ht]
    rw [String.append_assoc, String.append_assoc, String.append_assoc]

theorem intercalate_go_elem (s x : String) (as : List String) (hx : x ∈ as) :
    ∀ acc, ∃ u v, String.intercalate.go acc s as = u ++ x ++ v := by
  induction as with
  | nil => cases hx
  | cons a as ih =>
    intro acc
    rcases List.mem_cons.mp hx with rfl | hx2
    · obtain ⟨t, ht⟩ := intercalate_go_acc s as (acc ++ s ++ x)
      refine ⟨acc ++ s, t, ?_⟩
      rw [String.intercalate.go, ht]
    · exact ih hx2 (acc ++ s ++ a)

theorem intercalate_head (s a : String) (as : List String) :
    ∃ t, String.intercalate s (a :: as) = a ++ t := by
  obtain ⟨t, ht⟩ := intercalate_go_acc s as a
  exact ⟨t, ht⟩

theorem intercalate_elem (s x : String) (l : List String) (hx : x ∈ l) :
    strContains (String.intercalate s l) x := by
  cases l with
  | nil => cases hx
  | cons a as =>
    rcases List.mem_cons.mp hx with rfl | hx2
    · obtain ⟨t, ht⟩ := intercalate_head s x as
      exact ⟨"", t, by rw [ht, String.empty_append]⟩
    · exact intercalate_go_elem s x as hx2 a

theorem strContains_of_strContains (s x p : String) (h1 : strContains s x)
    (h2 : strContains x p) : strContains s p := by
  obtain ⟨u, v, huv⟩ := h1
  obtain ⟨u2, v2, huv2⟩ := h2
  refine ⟨u ++ u2, v2 ++ v, ?_⟩
  rw [huv, huv2]
  rw [String.append_assoc, String.append_assoc, String.append_assoc, String.append_assoc,
    String.append_assoc]

theorem strContains_self_of_append (a p b : String) : strContains (a ++ p ++ b) p :=
  ⟨a, b, rfl⟩

theorem string_append_ne_empty (a t : String) (ha : a.data ≠ []) : a ++ t ≠ "" := by
  intro h
  have h2 : (a ++ t).data = ("" : String).data := by rw [h]
  rw [String.data_append] at h2
  have h3 : a.data ++ t.data = [] := h2
  exact ha (List.append_eq_nil.mp h3).1

theorem extractPointsFromSentences_le (maxPoints : Nat) (l : List String) :
    ∀ seen points, points.length < maxPoints →
      (extractPointsFromSentences maxPoints l seen points).2.length ≤ maxPoints := by
  induction l with
  | nil =>
    intro seen points h
    exact Nat.le_of_lt h
  | cons sentence rest ih =>
    intro seen points h
    simp only [extractPointsFromSentences]
    by_cases h1 : normalizeWhitespace sentence = ""
    · simp only [if_pos h1]
      exact ih seen points h
    · simp only [if_neg h1]
      by_cases h2 : lowerStr (normalizeWhitespace sentence) ∈ seen
      · simp only [if_pos h2]
        exact ih seen points h
      · simp only [if_neg h2]
        by_cases h3 : maxPoints ≤ (points ++ [truncateText (normalizeWhitespace sentence) 200]).length
        · simp only [if_pos h3]
          have : (points ++ [truncateText (normalizeWhitespace sentence) 200]).length =
              points.length + 1 := by simp
          rw [this]
          exact Nat.succ_le_of_lt h
        · simp only [if_neg h3]
          exact ih _ _ (Nat.lt_of_not_le h3)

theorem extractPointsFromChunks_le (maxPoints : Nat) (chunks : List EvidenceChunk) :
    ∀ seen points, points.length < maxPoints →
      (extractPointsFromChunks maxPoints chunks seen points).length ≤ maxPoints := by
  induction chunks with
  | nil =>
    intro seen points h
    exact Nat.le_of_lt h
  | cons chunk rest ih =>
    intro seen points h
    simp only [extractPointsFromChunks]
    by_cases h1 : maxPoints ≤
        (extractPointsFromSentences maxPoints (splitSentences chunk.text) seen points).2.length
    · simp only [if_pos h1]
      exact extractPointsFromSentences_le maxPoints _ seen points h
    · simp only [if_neg h1]
      exact ih _ _ (Nat.lt_of_not_le h1)

theorem extractSummaryPoints_le (evidence : List EvidenceChunk) :
    (extractSummaryPoints evidence 4).length ≤ 4 :=
  extractPointsFromChunks_le 4 evidence [] [] (by decide)

theorem extractPointsFromSentences_shape (maxPoints : Nat) (l : List String) :
    ∀ seen points, ∃ ns : List String,
      (extractPointsFromSentences maxPoints l seen points).2 =
        points ++ ns.map (fun s => truncateText (normalizeWhitespace s) 200) ∧
      (∀ s ∈ ns, s ∈ l) ∧
      (ns.map (fun s => lowerStr (normalizeWhitespace s))).Nodup ∧
      (∀ s ∈ ns, lowerStr (normalizeWhitespace s) ∉ seen) ∧
      (∀ s ∈ ns, lowerStr (normalizeWhitespace s) ∈
        (extractPointsFromSentences maxPoints l seen points).1) ∧
      (∀ k ∈ seen, k ∈ (extractPointsFromSentences maxPoints l seen points).1) := by
  induction l with
  | nil =>
    intro seen points
    exact ⟨[], by simp [extractPointsFromSentences]⟩
  | cons sentence rest ih =>
    intro seen points
    simp only [extractPointsFromSentences]
    by_cases h1 : normalizeWhitespace sentence = ""
    · simp only [if_pos h1]
      obtain ⟨ns, hshape, hmem, hnodup, hfresh, hin, hmono⟩ := ih seen points
      exact ⟨ns, hshape, fun s hs => List.mem_cons_of_mem _ (hmem s hs), hnodup, hfresh,
        hin, hmono⟩
    · simp only [if_neg h1]
      by_cases h2 : lowerStr (normalizeWhitespace sentence) ∈ seen
      · simp only [if_pos h2]
        obtain ⟨ns, hshape, hmem, hnodup, hfresh, hin, hmono⟩ := ih seen points
        exact ⟨ns, hshape, fun s hs => List.mem_cons_of_mem _ (hmem s hs), hnodup, hfresh,
          hin, hmono⟩
      · simp only [if_neg h2]
        by_cases h3 : maxPoints ≤ (points ++ [truncateText (normalizeWhitespace sentence) 200]).length
        · simp only [if_pos h3]
          refine ⟨[sentence], by simp, ?_, by simp, ?_, ?_, ?_⟩
          · intro s hs
            rcases List.mem_cons.mp hs with rfl | hc
            · exact List.mem_cons_self _ _
            · cases hc
          · intro s hs
            rcases List.mem_cons.mp hs with rfl | hc
            · exact h2
            · cases hc
          · intro s hs
            rcases List.mem_cons.mp hs with rfl | hc
            · exact List.mem_cons_self _ _
            · cases hc
          · intro k hk
            exact List.mem_cons_of_mem _ hk
        · simp only [if_neg h3]
          obtain ⟨ns, hshape, hmem, hnodup, hfresh, hin, hmono⟩ :=
            ih (lowerStr (normalizeWhitespace sentence) :: seen)
              (points ++ [truncateText (normalizeWhitespace sentence) 200])
          refine ⟨sentence :: ns, ?_, ?_, ?_, ?_, ?_, ?_⟩
          · rw [hshape]
            simp
          · intro s hs
            rcases List.mem_cons.mp hs with rfl | hc
            · exact List.mem_cons_self _ _
            · exact List.mem_cons_of_mem _ (hmem s hc)
          · rw [List.map_cons]
            refine List.Pairwise.cons ?_ hnodup
            intro k hk
            simp only [List.mem_map] at hk
            obtain ⟨s, hs, hks⟩ := hk
            have := hfresh s hs
            rw [← hks]
            intro heq
            exact this (heq ▸ List.mem_cons_self _ _)
          · intro s hs
            rcases List.mem_cons.mp hs with rfl | hc
            · exact h2
            · intro hmem2
              exact hfresh s hc (List.mem_cons_of_mem _ hmem2)
          · intro s hs
            rcases List.mem_cons.mp hs with rfl | hc
            · exact hmono _ (List.mem_cons_self _ _)
            · exact hin s hc
          · intro k hk
            exact hmono k (List.mem_cons_of_mem _ hk)

theorem extractPointsFromChunks_shape (maxPoints : Nat) (chunks : List EvidenceChunk) :
    ∀ seen points, ∃ ns : List String,
      extractPointsFromChunks maxPoints chunks seen points =
        points ++ ns.map (fun s => truncateText (normalizeWhitespace s) 200) ∧
      (∀ s ∈ ns, ∃ c ∈ chunks, s ∈ splitSentences c.text) ∧
      (ns.map (fun s => lowerStr (normalizeWhitespace s))).Nodup ∧
      (∀ s ∈ ns, lowerStr (normalizeWhitespace s) ∉ seen) := by
  induction chunks with
  | nil =>
    intro seen points
    exact ⟨[], by simp [extractPointsFromChunks]⟩
  | cons chunk rest ih =>
    intro seen points
    simp only [extractPointsFromChunks]
    obtain ⟨ns1, hshape1, hmem1, hnodup1, hfresh1, hin1, hmono1⟩ :=
      extractPointsFromSentences_shape maxPoints (splitSentences chunk.text) seen points
    by_cases h1 : maxPoints ≤
        (extractPointsFromSentences maxPoints (splitSentences chunk.text) seen points).2.length
    · simp only [if_pos h1]
      exact ⟨ns1, hshape1,
        fun s hs => ⟨chunk, List.mem_cons_self _ _, hmem1 s hs⟩, hnodup1, hfresh1⟩
    · simp only [if_neg h1]
      obtain ⟨ns2, hshape2, hmem2, hnodup2, hfresh2⟩ := ih
        (extractPointsFromSentences maxPoints (splitSentences chunk.text) seen points).1
        (extractPointsFromSentences maxPoints (splitSentences chunk.text) seen points).2
      refine ⟨ns1 ++ ns2, ?_, ?_, ?_, ?_⟩
      · rw [hshape2, hshape1]
        simp [List.append_assoc]
      · intro s hs
        rcases List.mem_append.mp hs with hs1 | hs2
        · exact ⟨chunk, List.mem_cons_self _ _, hmem1 s hs1⟩
        · obtain ⟨c, hc, hsc⟩ := hmem2 s hs2
          exact ⟨c, List.mem_cons_of_mem _ hc, hsc⟩
      · rw [List.map_append]
        rw [List.nodup_append]
        refine ⟨hnodup1, hnodup2, ?_⟩
        intro k hk1 hk2
        simp only [List.mem_map] at hk1 hk2
        obtain ⟨s1, hs1, hks1⟩ := hk1
        obtain ⟨s2, hs2, hks2⟩ := hk2
        exact hfresh2 s2 hs2 (hks2.symm ▸ hks1 ▸ hin1 s1 hs1)
      · intro s hs
        rcases List.mem_append.mp hs with hs1 | hs2
        · exact hfresh1 s hs1
        · intro hmem3
          exact hfresh2 s hs2 (hmono1 _ hmem3)

theorem extractSummaryPoints_shape (evidence : List EvidenceChunk) :
    ∃ ns : List String,
      extractSummaryPoints evidence 4 =
        ns.map (fun s => truncateText (normalizeWhitespace s) 200) ∧
      (∀ s ∈ ns, ∃ c ∈ evidence, s ∈ splitSentences c.text) ∧
      (ns.map (fun s => lowerStr (normalizeWhitespace s))).Nodup := by
  obtain ⟨ns, hshape, hmem, hnodup, _⟩ := extractPointsFromChunks_shape 4 evidence [] []
  exact ⟨ns, by rw [extractSummaryPoints, hshape]; simp, hmem, hnodup⟩

theorem mem_ensureElem (x : String) (l : List String) : x ∈ ensureElem x l := by
  unfold ensureElem
  by_cases h : x ∈ l
  · rwa [if_pos h]
  · rw [if_neg h]
    exact List.mem_append_right _ (List.mem_cons_self _ _)

theorem mem_ensureElem_of_mem (x y : String) (l : List String) (h : x ∈ l) :
    x ∈ ensureElem y l := by
  unfold ensureElem
  by_cases h2 : y ∈ l
  · rwa [if_pos h2]
  · rw [if_neg h2]
    exact List.mem_append_left _ h

theorem strContains_append_left (pre s sub : String) (h : strContains s sub) :
    strContains (pre ++ s) sub := by
  obtain ⟨u, v, huv⟩ := h
  refine ⟨pre ++ u, v, ?_⟩
  rw [huv]
  simp only [String.append_assoc]

/-- C4: when the model call is unusable (no answer, a model error),
`run_agent` still returns a non-empty answer that opens with the
generation-unavailable marker and contains the classified human-readable
reason; `tools_used` carries the generic failure marker and the
code-specific one; the summary points are at most 4 deduplicated
200-character truncations of sentences of the merged evidence, each
embedded in the answer; and when no point exists every upstream answer is
embedded instead. -/
theorem run_agent_model_failure_spec (request : PipelineAgentRunRequest)
    (toolEvidence : List EvidenceChunk) (executedTools : List String) (merr : String) :
    (runAgentFailureEnv request toolEvidence executedTools merr).answer ≠ "" ∧
    (∃ t, (runAgentFailureEnv request toolEvidence executedTools merr).answer =
      "Model generation unavailable." ++ t) ∧
    strContains (runAgentFailureEnv request toolEvidence executedTools merr).answer
      ("Reason: " ++ modelErrorMessage (classifyModelError merr)) ∧
    "agent_model_generation_failed" ∈
      (runAgentFailureEnv request toolEvidence executedTools merr).tools_used ∧
    ("agent_model_generation_failed:" ++ classifyModelError merr) ∈
      (runAgentFailureEnv request toolEvidence executedTools merr).tools_used ∧
    (extractSummaryPoints (mergedEvidence request toolEvidence) 4).length ≤ 4 ∧
    (∃ ns : List String,
      extractSummaryPoints (mergedEvidence request toolEvidence) 4 =
        ns.map (fun s => truncateText (normalizeWhitespace s) 200) ∧
      (∀ s ∈ ns, ∃ c ∈ mergedEvidence request toolEvidence, s ∈ splitSentences c.text) ∧
      (ns.map (fun s => lowerStr (normalizeWhitespace s))).Nodup) ∧
    (∀ p ∈ extractSummaryPoints (mergedEvidence request toolEvidence) 4,
      strContains (runAgentFailureEnv request toolEvidence executedTools merr).answer p) ∧
    (extractSummaryPoints (mergedEvidence request toolEvidence) 4 = [] →
      ∀ a ∈ (runAgentFailureEnv request toolEvidence executedTools merr).upstream_answers,
        strContains (runAgentFailureEnv request toolEvidence executedTools merr).answer a) := by
  obtain ⟨ns, hns1, hns2, hns3⟩ := extractSummaryPoints_shape (mergedEvidence request toolEvidence)
  have hanswer : (runAgentFailureEnv request toolEvidence executedTools merr).answer =
      "\n\n".intercalate ("Model generation unavailable." ::
        ("Reason: " ++ modelErrorMessage (classifyModelError merr)) ::
        ((if extractSummaryPoints (mergedEvidence request toolEvidence) 4 ≠ [] then
            ["Evidence-based summary:\n" ++ "\n".intercalate
              ((extractSummaryPoints (mergedEvidence request toolEvidence) 4).map
                (fun p => "- " ++ p))]
          else if ((request.upstream_outputs.map (fun o => stripStr o.answer)).filter
              (fun a => a != "")) ≠ [] then
            ["Upstream results:\n" ++ "\n".intercalate
              (((request.upstream_outputs.map (fun o => stripStr o.answer)).filter
                (fun a => a != "")).map (fun t => "- " ++ t))]
          else ["No evidence was available to build a fallback summary."]) ++
         ["Task: " ++ stripStr request.prompt])) := rfl
  have hups : (runAgentFailureEnv request toolEvidence executedTools merr).upstream_answers =
      (request.upstream_outputs.map (fun o => stripStr o.answer)).filter (fun a => a != "") := rfl
  have htools : (runAgentFailureEnv request toolEvidence executedTools merr).tools_used =
      ensureElem ("agent_model_generation_failed:" ++ classifyModelError merr)
        (ensureElem "agent_model_generation_failed"
          ((mergedEvidence request toolEvidence).foldl (fun acc c =>
            if c.source_tool ≠ "" ∧ c.source_tool ∉ acc then acc ++ [c.source_tool] else acc)
            executedTools)) := rfl
  have h2 : ∃ t, (runAgentFailureEnv request toolEvidence executedTools merr).answer =
      "Model generation unavailable." ++ t := by
    rw [hanswer]
    exact intercalate_head _ _ _
  have h3 : strContains (runAgentFailureEnv request toolEvidence executedTools merr).answer
      ("Reason: " ++ modelErrorMessage (classifyModelError merr)) := by
    rw [hanswer]
    exact intercalate_elem _ _ _ (List.mem_cons_of_mem _ (List.mem_cons_self _ _))
  refine ⟨?_, h2, h3, ?_, ?_, extractSummaryPoints_le _, ⟨ns, hns1, hns2, hns3⟩, ?_, ?_⟩
  · obtain ⟨t, ht⟩ := h2
    rw [ht]
    exact string_append_ne_empty _ _ (by decide)
  · rw [htools]
    exact mem_ensureElem_of_mem _ _ _ (mem_ensureElem _ _)
  · rw [htools]
    exact mem_ensureElem _ _
  · intro p hp
    have hne : extractSummaryPoints (mergedEvidence request toolEvidence) 4 ≠ [] :=
      List.ne_nil_of_mem hp
    rw [hanswer, if_pos hne]
    have hinner : strContains ("\n".intercalate
        ((extractSummaryPoints (mergedEvidence request toolEvidence) 4).map
          (fun q => "- " ++ q))) ("- " ++ p) :=
      intercalate_elem _ _ _ (List.mem_map_of_mem _ hp)
    have hmid : strContains ("Evidence-based summary:\n" ++ "\n".intercalate
        ((extractSummaryPoints (mergedEvidence request toolEvidence) 4).map
          (fun q => "- " ++ q))) ("- " ++ p) :=
      strContains_append_left _ _ _ hinner
    have houter : strContains ("\n\n".intercalate ("Model generation unavailable." ::
        ("Reason: " ++ modelErrorMessage (classifyModelError merr)) ::
        (["Evidence-based summary:\n" ++ "\n".intercalate
            ((extractSummaryPoints (mergedEvidence request toolEvidence) 4).map
              (fun q => "- " ++ q))] ++
         ["Task: " ++ stripStr request.prompt])))
        ("Evidence-based summary:\n" ++ "\n".intercalate
          ((extractSummaryPoints (mergedEvidence request toolEvidence) 4).map
            (fun q => "- " ++ q))) :=
      intercalate_elem _ _ _ (List.mem_cons_of_mem _ (List.mem_cons_of_mem _
        (List.mem_append_left _ (List.mem_cons_self _ _))))
    exact strContains_of_strContains _ _ _ houter
      (strContains_of_strContains _ _ _ hmid ⟨"- ", "", (String.append_empty _).symm⟩)
  · intro hnil a ha
    rw [hups] at ha
    have hne : ((request.upstream_outputs.map (fun o => stripStr o.answer)).filter
        (fun x => x != "")) ≠ [] := List.ne_nil_of_mem ha
    rw [hanswer, if_neg (fun h => h hnil), if_pos hne]
    have hinner : strContains ("\n".intercalate
        (((request.upstream_outputs.map (fun o => stripStr o.answer)).filter
          (fun x => x != "")).map (fun t => "- " ++ t))) ("- " ++ a) :=
      intercalate_elem _ _ _ (List.mem_map_of_mem _ ha)
    have hmid : strContains ("Upstream results:\n" ++ "\n".intercalate
        (((request.upstream_outputs.map (fun o => stripStr o.answer)).filter
          (fun x => x != "")).map (fun t => "- " ++ t))) ("- " ++ a) :=
      strContains_append_left _ _ _ hinner
    have houter : strContains ("\n\n".intercalate ("Model generation unavailable." ::
        ("Reason: " ++ modelErrorMessage (classifyModelError merr)) ::
        (["Upstream results:\n" ++ "\n".intercalate
            (((request.upstream_outputs.map (fun o => stripStr o.answer)).filter
              (fun x => x != "")).map (fun t => "- " ++ t))] ++
         ["Task: " ++ stripStr request.prompt])))
        ("Upstream results:\n" ++ "\n".intercalate
          (((request.upstream_outputs.map (fun o => stripStr o.answer)).filter
            (fun x => x != "")).map (fun t => "- " ++ t))) :=
      intercalate_elem _ _ _ (List.mem_cons_of_mem _ (List.mem_cons_of_mem _
        (List.mem_append_left _ (List.mem_cons_self _ _))))
    exact strContains_of_strContains _ _ _ houter
      (strContains_of_strContains _ _ _ hmid ⟨"- ", "", (String.append_empty _).symm⟩)

/-! ## Kahn loop analysis (C1, C2, C3) -/

theorem inFrom_nil (edges : List PipelineEdgeSpec) (i : String) :
    inFrom edges [] i = 0 := by
  simp [inFrom]

theorem inFrom_le (edges : List PipelineEdgeSpec) (P : List String) (i : String) :
    (inFrom edges P i : Int) ≤ indegreeOf edges i := by
  have h := List.length_filter_le (fun e => decide (e.source ∈ P))
    (edges.filter (fun e => e.target == i))
  unfold inFrom indegreeOf
  exact_mod_cast h

theorem filter_src_append_single (l : List PipelineEdgeSpec) (P : List String) (x : String)
    (hx : x ∉ P) :
    (l.filter (fun e => decide (e.source ∈ P ++ [x]))).length =
      (l.filter (fun e => decide (e.source ∈ P))).length +
        (l.filter (fun e => e.source == x)).length := by
  induction l with
  | nil => rfl
  | cons e es ih =>
    by_cases hp : e.source ∈ P
    · have hnx : e.source ≠ x := fun h => hx (h ▸ hp)
      have h1 : decide (e.source ∈ P ++ [x]) = true := by
        rw [decide_eq_true_eq]
        exact List.mem_append_left _ hp
      have h2 : decide (e.source ∈ P) = true := by
        rw [decide_eq_true_eq]
        exact hp
      have h3 : (e.source == x) = false := by
        rw [beq_eq_false_iff_ne]
        exact hnx
      rw [List.filter_cons, List.filter_cons, List.filter_cons, h1, h2, h3,
        if_pos rfl, if_pos rfl, if_neg (by simp), List.length_cons, List.length_cons, ih]
      omega
    · by_cases hex : e.source = x
      · have h1 : decide (e.source ∈ P ++ [x]) = true := by
          rw [decide_eq_true_eq]
          exact List.mem_append_right _ (by simp [hex])
        have h2 : decide (e.source ∈ P) = false := by
          simp [hp]
        have h3 : (e.source == x) = true := by
          simp [hex]
        rw [List.filter_cons, List.filter_cons, List.filter_cons, h1, h2, h3,
          if_pos rfl, if_neg (by simp), if_pos rfl, List.length_cons, List.length_cons, ih]
        omega
      · have h1 : decide (e.source ∈ P ++ [x]) = false := by
          simp [List.mem_append, hp, hex]
        have h2 : decide (e.source ∈ P) = false := by
          simp [hp]
        have h3 : (e.source == x) = false := by
          simp [hex]
        rw [List.filter_cons, List.filter_cons, List.filter_cons, h1, h2, h3,
          if_neg (by simp), if_neg (by simp), if_neg (by simp), ih]

theorem inFrom_append_single (edges : List PipelineEdgeSpec) (P : List String) (x i : String)
    (hx : x ∉ P) :
    inFrom edges (P ++ [x]) i = inFrom edges P i + countOut edges x i := by
  unfold inFrom countOut
  exact filter_src_append_single _ P x hx

theorem filter_length_eq_of_all {l : List PipelineEdgeSpec} {P : List String}
    (h : ∀ e ∈ l, e.source ∈ P) :
    (l.filter (fun e => decide (e.source ∈ P))).length = l.length := by
  rw [List.filter_eq_self.mpr]
  intro a ha
  simpa using h a ha

theorem all_of_filter_length_eq {l : List PipelineEdgeSpec} {P : List String}
    (h : (l.filter (fun e => decide (e.source ∈ P))).length = l.length) :
    ∀ e ∈ l, e.source ∈ P := by
  induction l with
  | nil => intro e he; cases he
  | cons a as ih =>
    by_cases hp : a.source ∈ P
    · intro e he
      rcases List.mem_cons.mp he with rfl | he2
      · exact hp
      · refine ih ?_ e he2
        simpa [List.filter_cons, hp] using h
    · exfalso
      have hlen := List.length_filter_le (fun e => decide (e.source ∈ P)) as
      simp [List.filter_cons, hp] at h
      omega

theorem inFrom_eq_indeg_iff (edges : List PipelineEdgeSpec) (P : List String) (i : String) :
    ((inFrom edges P i : Int) = indegreeOf edges i) ↔
      (∀ e ∈ edges, e.target = i → e.source ∈ P) := by
  unfold inFrom indegreeOf
  rw [Nat.cast_inj]
  constructor
  · intro h e he ht
    refine all_of_filter_length_eq h e ?_
    rw [List.mem_filter]
    exact ⟨he, by simp [ht]⟩
  · intro h
    refine filter_length_eq_of_all ?_
    intro e he
    rw [List.mem_filter] at he
    exact h e he.1 (by simpa using he.2)

theorem count_adjacencyOf (edges : List PipelineEdgeSpec) (x i : String) :
    (adjacencyOf edges x).count i = countOut edges x i := by
  induction edges with
  | nil => rfl
  | cons e es ih =>
    unfold adjacencyOf countOut
    unfold adjacencyOf countOut at ih
    by_cases hs : e.source = x
    · by_cases ht : e.target = i
      · simp [List.filter_cons, hs, ht, List.count_cons, ih]
      · simp [List.filter_cons, hs, ht, List.count_cons, ih]
    · by_cases ht : e.target = i
      · simp [List.filter_cons, hs, ht, ih]
      · simp [List.filter_cons, hs, ht, ih]

theorem mem_adjacencyOf {edges : List PipelineEdgeSpec} {x n : String}
    (h : n ∈ adjacencyOf edges x) : ∃ e ∈ edges, e.source = x ∧ e.target = n := by
  unfold adjacencyOf at h
  rw [List.mem_map] at h
  obtain ⟨e, he, hn⟩ := h
  rw [List.mem_filter] at he
  exact ⟨e, he.1, by simpa using he.2, hn⟩

theorem countOut_pos_mem_adjacencyOf {edges : List PipelineEdgeSpec} {x i : String}
    (h : 0 < countOut edges x i) : i ∈ adjacencyOf edges x := by
  rw [← count_adjacencyOf] at h
  exact List.count_pos_iff.mp h

theorem relaxTargets_spec (ns : List String) : ∀ (d : String → Int) (q : List String),
    (relaxTargets d q ns).1 = (fun i => d i - (ns.count i : Int)) ∧
    ∃ app, (relaxTargets d q ns).2 = q ++ app ∧ app.Nodup ∧
      (∀ n, n ∈ app ↔ n ∈ ns ∧ 1 ≤ d n ∧ d n ≤ (ns.count n : Int)) := by
  induction ns with
  | nil =>
    intro d q
    constructor
    · funext i
      simp [relaxTargets]
    · exact ⟨[], by simp [relaxTargets]⟩
  | cons n ns ih =>
    intro d q
    have hstep : relaxTargets d q (n :: ns) =
        relaxTargets (fun x => if x = n then d n - 1 else d x)
          (if d n - 1 = 0 then q ++ [n] else q) ns := rfl
    obtain ⟨ih1, app, happ, hnodup, hcrit⟩ := ih (fun x => if x = n then d n - 1 else d x)
      (if d n - 1 = 0 then q ++ [n] else q)
    have hcount_self : List.count n (n :: ns) = List.count n ns + 1 := by
      simp [List.count_cons]
    have hcount_other : ∀ x, x ≠ n → List.count x (n :: ns) = List.count x ns := by
      intro x hxn
      have hne : (n == x) = false := by
        rw [beq_eq_false_iff_ne]
        exact Ne.symm hxn
      simp [List.count_cons, hne]
    constructor
    · rw [hstep, ih1]
      funext i
      by_cases hi : i = n
      · rw [hi, if_pos rfl, hcount_self]
        push_cast
        omega
      · rw [if_neg hi, hcount_other i hi]
    · by_cases hd : d n - 1 = 0
      · refine ⟨n :: app, ?_, ?_, ?_⟩
        · rw [hstep, happ, if_pos hd, List.append_assoc]
          rfl
        · refine List.Pairwise.cons ?_ hnodup
          intro y hy hyn
          rw [← hyn] at hy
          have hcr := (hcrit n).mp hy
          rw [if_pos rfl] at hcr
          omega
        · intro x
          by_cases hx : x = n
          · rw [hx]
            constructor
            · intro _
              refine ⟨List.mem_cons_self _ _, by omega, ?_⟩
              rw [hcount_self]
              push_cast
              omega
            · intro _
              exact List.mem_cons_self _ _
          · rw [List.mem_cons, List.mem_cons, hcount_other x hx]
            have hthis := hcrit x
            rw [if_neg hx] at hthis
            constructor
            · intro hmem
              rcases hmem with heq | hmem2
              · exact absurd heq hx
              · obtain ⟨ha, hb, hcc⟩ := hthis.mp hmem2
                exact ⟨Or.inr ha, hb, hcc⟩
            · intro hmem3
              obtain ⟨hmem, hb, hcc⟩ := hmem3
              rcases hmem with heq | hmem2
              · exact absurd heq hx
              · exact Or.inr (hthis.mpr ⟨hmem2, hb, hcc⟩)
      · refine ⟨app, ?_, hnodup, ?_⟩
        · rw [hstep, happ, if_neg hd]
        · intro x
          by_cases hx : x = n
          · have hthis := hcrit x
            rw [if_pos hx] at hthis
            rw [hthis, hx, hcount_self]
            constructor
            · intro hmem4
              obtain ⟨ha, hb, hcc⟩ := hmem4
              refine ⟨List.mem_cons_of_mem _ ha, by omega, by push_cast; omega⟩
            · intro hmem5
              obtain ⟨ha, hb, hcc⟩ := hmem5
              push_cast at hcc
              have hcount : 1 ≤ List.count n ns := by omega
              refine ⟨List.count_pos_iff.mp (by omega), by omega, by omega⟩
          · have hthis := hcrit x
            rw [if_neg hx] at hthis
            rw [hthis, hcount_other x hx, List.mem_cons]
            constructor
            · intro hmem6
              obtain ⟨ha, hb, hcc⟩ := hmem6
              exact ⟨Or.inr ha, hb, hcc⟩
            · intro hmem7
              obtain ⟨hmem, hb, hcc⟩ := hmem7
              rcases hmem with heq | hmem2
              · exact absurd heq hx
              · exact ⟨hmem2, hb, hcc⟩

theorem kahn_step {edges : List PipelineEdgeSpec} {ids : List String}
    (hT : ∀ e ∈ edges, e.target ∈ ids)
    {P rest : List String} {d : String → Int} {x : String}
    (inv : KahnInv edges ids P (x :: rest) d) :
    KahnInv edges ids (P ++ [x]) (relaxTargets d rest (adjacencyOf edges x)).2
      (relaxTargets d rest (adjacencyOf edges x)).1 := by
  obtain ⟨hd1, app, happ, happnodup, hcrit⟩ := relaxTargets_spec (adjacencyOf edges x) d rest
  obtain ⟨hndP, hndq, hdisj⟩ := List.nodup_append.mp inv.nodupPQ
  obtain ⟨hxrest, hndrest⟩ := List.nodup_cons.mp hndq
  have hxnotP : x ∉ P := fun hxP => hdisj hxP (List.mem_cons_self _ _)
  have hxq : x ∈ P ++ x :: rest := List.mem_append_right _ (List.mem_cons_self _ _)
  have hdx0 : d x = 0 := by
    have h1 := inv.donePQ x hxq
    have h2 := inv.deg x
    have h3 := inFrom_le edges P x
    omega
  have hsrcP : ∀ e ∈ edges, e.target = x → e.source ∈ P := by
    rw [← inFrom_eq_indeg_iff]
    have h2 := inv.deg x
    omega
  have hcount : ∀ i, ((adjacencyOf edges x).count i : Int) = (countOut edges x i : Int) := by
    intro i
    rw [count_adjacencyOf]
  have hnotPQ_of_app : ∀ y ∈ app, y ∉ P ++ x :: rest := by
    intro y hy hmem
    have h1 := ((hcrit y).mp hy).2.1
    have h2 := inv.donePQ y hmem
    omega
  rw [happ, hd1]
  refine ⟨?_, ?_, ?_, ?_, ?_, ?_⟩
  · -- nodup
    rw [← List.append_assoc, ← List.append_cons]
    rw [List.nodup_append]
    refine ⟨inv.nodupPQ, happnodup, ?_⟩
    intro y hy hyapp
    exact hnotPQ_of_app y hyapp hy
  · -- membership in ids
    intro y hy
    rw [← List.append_assoc, ← List.append_cons] at hy
    rcases List.mem_append.mp hy with h1 | h2
    · exact inv.memPQ y h1
    · obtain ⟨e, he, hs, ht⟩ := mem_adjacencyOf (((hcrit y).mp h2).1)
      exact ht ▸ hT e he
  · -- degree accounting
    intro i
    have h1 := inv.deg i
    have h2 := inFrom_append_single edges P x i hxnotP
    have h3 := hcount i
    omega
  · -- processed and queued nodes are fully relaxed
    intro y hy
    rw [← List.append_assoc, ← List.append_cons] at hy
    rcases List.mem_append.mp hy with h1 | h2
    · have := inv.donePQ y h1
      have hc : (0 : Int) ≤ ((adjacencyOf edges x).count y : Int) := Int.ofNat_nonneg _
      omega
    · have := ((hcrit y).mp h2).2.2
      omega
  · -- completeness
    intro i hi hall
    rw [← List.append_assoc, ← List.append_cons]
    by_cases hiPQ : i ∈ P ++ x :: rest
    · exact List.mem_append_left _ hiPQ
    · refine List.mem_append_right _ ?_
      by_cases hallP : ∀ e ∈ edges, e.target = i → e.source ∈ P
      · exact absurd (inv.complete i hi hallP) hiPQ
      · push_neg at hallP
        obtain ⟨e0, he0, ht0, hs0⟩ := hallP
        have hs0x : e0.source = x := by
          rcases List.mem_append.mp (hall e0 he0 ht0) with h1 | h2
          · exact absurd h1 hs0
          · simpa using h2
        have hpos : 0 < countOut edges x i := by
          have hmem : e0 ∈ (edges.filter (fun e => e.target == i)).filter
              (fun e => e.source == x) := by
            rw [List.mem_filter, List.mem_filter]
            exact ⟨⟨he0, by simp [ht0]⟩, by simp [hs0x]⟩
          unfold countOut
          exact List.length_pos.mpr (List.ne_nil_of_mem hmem)
        have hindeg : (inFrom edges (P ++ [x]) i : Int) = indegreeOf edges i :=
          (inFrom_eq_indeg_iff edges (P ++ [x]) i).mpr hall
        have hsplit := inFrom_append_single edges P x i hxnotP
        have hdeg := inv.deg i
        have hdi : d i = (countOut edges x i : Int) := by omega
        refine (hcrit i).mpr ⟨countOut_pos_mem_adjacencyOf hpos, by omega, ?_⟩
        rw [hcount i]
        omega
  · -- edge ordering within the processed nodes
    intro e he ht
    rcases List.mem_append.mp ht with htP | htx
    · obtain ⟨hsP, hidx⟩ := inv.edgeDone e he htP
      refine ⟨List.mem_append_left _ hsP, ?_⟩
      rw [List.indexOf_append_of_mem hsP, List.indexOf_append_of_mem htP]
      exact hidx
    · have htx2 : e.target = x := by simpa using htx
      have hsP : e.source ∈ P := hsrcP e he htx2
      refine ⟨List.mem_append_left _ hsP, ?_⟩
      rw [List.indexOf_append_of_mem hsP, htx2,
        List.indexOf_append_of_not_mem hxnotP]
      have h1 : List.indexOf e.source P < P.length :=
        List.indexOf_lt_length.mpr hsP
      omega

theorem kahnLoop_inv {edges : List PipelineEdgeSpec} {ids : List String}
    (hT : ∀ e ∈ edges, e.target ∈ ids) :
    ∀ (fuel : Nat) (P q : List String) (d : String → Int),
      KahnInv edges ids P q d →
      ∃ q2 d2, KahnInv edges ids (P ++ kahnLoop (adjacencyOf edges) fuel d q) q2 d2 ∧
        (q2 = [] ∨ (kahnLoop (adjacencyOf edges) fuel d q).length = fuel) := by
  intro fuel
  induction fuel with
  | zero =>
    intro P q d inv
    cases q with
    | nil => exact ⟨[], d, by simpa [kahnLoop] using inv, Or.inl rfl⟩
    | cons x rest => exact ⟨x :: rest, d, by simpa [kahnLoop] using inv, Or.inr rfl⟩
  | succ fuel ih =>
    intro P q d inv
    cases q with
    | nil => exact ⟨[], d, by simpa [kahnLoop] using inv, Or.inl rfl⟩
    | cons x rest =>
      have hstep : kahnLoop (adjacencyOf edges) (fuel + 1) d (x :: rest) =
          x :: kahnLoop (adjacencyOf edges) fuel
            (relaxTargets d rest (adjacencyOf edges x)).1
            (relaxTargets d rest (adjacencyOf edges x)).2 := rfl
      obtain ⟨q2, d2, hinv2, hcase⟩ := ih (P ++ [x])
        (relaxTargets d rest (adjacencyOf edges x)).2
        (relaxTargets d rest (adjacencyOf edges x)).1 (kahn_step hT inv)
      refine ⟨q2, d2, ?_, ?_⟩
      · rw [hstep, List.append_cons]
        exact hinv2
      · rcases hcase with h | h
        · exact Or.inl h
        · right
          rw [hstep, List.length_cons, h]

theorem kahnLoop_queue_order (adj : String → List String) :
    ∀ (fuel : Nat) (q1 q2 : List String) (d : String → Int), q1.length ≤ fuel →
      q1 <+: kahnLoop adj fuel d (q1 ++ q2) := by
  intro fuel
  induction fuel with
  | zero =>
    intro q1 q2 d h
    have hq : q1 = [] := List.eq_nil_of_length_eq_zero (Nat.le_zero.mp h)
    rw [hq]
    exact List.nil_prefix
  | succ fuel ih =>
    intro q1 q2 d h
    cases q1 with
    | nil => exact List.nil_prefix
    | cons x rest =>
      have hstep : kahnLoop adj (fuel + 1) d ((x :: rest) ++ q2) =
          x :: kahnLoop adj fuel (relaxTargets d (rest ++ q2) (adj x)).1
            (relaxTargets d (rest ++ q2) (adj x)).2 := rfl
      obtain ⟨-, app, happ, -, -⟩ := relaxTargets_spec (adj x) d (rest ++ q2)
      have hq : (relaxTargets d (rest ++ q2) (adj x)).2 = rest ++ (q2 ++ app) := by
        rw [happ, List.append_assoc]
      rw [hstep, hq]
      refine List.cons_prefix_cons.mpr ⟨rfl, ?_⟩
      rw [List.length_cons] at h
      exact ih rest (q2 ++ app) _ (by omega)

theorem kahn_init (nodes : List PipelineNodeSpec) (edges : List PipelineEdgeSpec)
    (hNodup : (nodes.map PipelineNodeSpec.id).Nodup) :
    KahnInv edges (nodes.map PipelineNodeSpec.id) [] (initialQueue nodes edges)
      (indegreeOf edges) := by
  have hperm : (initialQueue nodes edges).Perm
      ((nodes.map PipelineNodeSpec.id).filter (fun i => indegreeOf edges i == 0)) :=
    sortByB_perm _ _
  refine ⟨?_, ?_, ?_, ?_, ?_, ?_⟩
  · rw [List.nil_append]
    exact hperm.nodup_iff.mpr (hNodup.filter _)
  · intro y hy
    rw [List.nil_append] at hy
    exact (List.mem_filter.mp (hperm.mem_iff.mp hy)).1
  · intro i
    rw [inFrom_nil]
    simp
  · intro y hy
    rw [List.nil_append] at hy
    have h2 := (List.mem_filter.mp (hperm.mem_iff.mp hy)).2
    rw [beq_iff_eq] at h2
    omega
  · intro i hi hall
    have hnone : edges.filter (fun e => e.target == i) = [] := by
      rw [List.filter_eq_nil]
      intro e he
      rw [beq_iff_eq]
      intro ht
      exact List.not_mem_nil _ (hall e he ht)
    have hz : indegreeOf edges i = 0 := by
      unfold indegreeOf
      rw [hnone]
      rfl
    rw [List.nil_append]
    rw [hperm.mem_iff]
    rw [List.mem_filter]
    exact ⟨hi, by rw [beq_iff_eq]; exact hz⟩
  · intro e he ht
    exact absurd ht (List.not_mem_nil _)

theorem checkEdges_ok {ids : List String} : ∀ {edges : List PipelineEdgeSpec},
    checkEdges ids edges = Except.ok () →
      ∀ e ∈ edges, e.source ∈ ids ∧ e.target ∈ ids := by
  intro edges
  induction edges with
  | nil =>
    intro _ e he
    cases he
  | cons e0 es ih =>
    intro h e he
    unfold checkEdges at h
    by_cases h1 : e0.source ∉ ids
    · rw [if_pos h1] at h
      cases h
    · rw [if_neg h1] at h
      by_cases h2 : e0.target ∉ ids
      · rw [if_pos h2] at h
        cases h
      · rw [if_neg h2] at h
        rcases List.mem_cons.mp he with rfl | he2
        · exact ⟨not_not.mp h1, not_not.mp h2⟩
        · exact ih h e he2

theorem checkEdges_ok_of {ids : List String} : ∀ {edges : List PipelineEdgeSpec},
    (∀ e ∈ edges, e.source ∈ ids ∧ e.target ∈ ids) →
      checkEdges ids edges = Except.ok () := by
  intro edges
  induction edges with
  | nil =>
    intro _
    rfl
  | cons e0 es ih =>
    intro h
    unfold checkEdges
    rw [if_neg (not_not.mpr (h e0 (List.mem_cons_self _ _)).1),
      if_neg (not_not.mpr (h e0 (List.mem_cons_self _ _)).2)]
    exact ih (fun e he => h e (List.mem_cons_of_mem _ he))

theorem nodeById_id {nodes : List PipelineNodeSpec} {i : String}
    (h : i ∈ nodes.map PipelineNodeSpec.id) : (nodeById nodes i).id = i := by
  rw [List.mem_map] at h
  obtain ⟨n, hn, hni⟩ := h
  unfold nodeById
  have hfind : (nodes.find? (fun n => n.id == i)).isSome = true := by
    rw [List.find?_isSome]
    exact ⟨n, hn, by simp [hni]⟩
  obtain ⟨m, hm⟩ := Option.isSome_iff_exists.mp hfind
  rw [hm]
  have hp := List.find?_some hm
  simpa using hp

theorem topologicalOrder_eq (nodes : List PipelineNodeSpec) (edges : List PipelineEdgeSpec)
    (hnd : (nodes.map PipelineNodeSpec.id).Nodup)
    (hck : checkEdges (nodes.map PipelineNodeSpec.id) edges = Except.ok ()) :
    topologicalOrder nodes edges =
      (if (kahnLoop (adjacencyOf edges) (nodes.length + edges.length + 1) (indegreeOf edges)
          (initialQueue nodes edges)).length ≠ nodes.length then
        Except.error "Pipeline graph contains a cycle"
      else Except.ok ((kahnLoop (adjacencyOf edges) (nodes.length + edges.length + 1)
          (indegreeOf edges) (initialQueue nodes edges)).map (nodeById nodes))) := by
  unfold topologicalOrder
  rw [if_neg (not_not.mpr hnd), hck]

theorem kahn_complete_mem {edges : List PipelineEdgeSpec} {ids : List String}
    {P : List String} {d : String → Int} (L : List String)
    (hL : ∀ e ∈ edges, L.indexOf e.source < L.indexOf e.target)
    (hS : ∀ e ∈ edges, e.source ∈ ids)
    (inv : KahnInv edges ids P [] d) :
    ∀ k, ∀ i ∈ ids, L.indexOf i < k → i ∈ P := by
  intro k
  induction k with
  | zero =>
    intro i hi h
    omega
  | succ k ih =>
    intro i hi hlt
    by_contra hnp
    have hnall : ¬ ∀ e ∈ edges, e.target = i → e.source ∈ P := by
      intro hall
      exact hnp (by simpa using inv.complete i hi hall)
    push_neg at hnall
    obtain ⟨e, he, ht, hs⟩ := hnall
    have hidx : L.indexOf e.source < L.indexOf i := ht ▸ hL e he
    exact hs (ih e.source (hS e he) (by omega))

theorem chain_indexOf_lt {edges : List PipelineEdgeSpec} {out : List String}
    (hmono : ∀ e ∈ edges, out.indexOf e.source < out.indexOf e.target) :
    ∀ (l : List String) (a : String), List.Chain (edgeRel edges) a l →
      ∀ b, l.getLast? = some b → out.indexOf a < out.indexOf b := by
  intro l
  induction l with
  | nil =>
    intro a _ b hb
    cases hb
  | cons c cs ih =>
    intro a hchain b hb
    rw [List.chain_cons] at hchain
    obtain ⟨hac, hcs⟩ := hchain
    obtain ⟨e, he, hs, ht⟩ := hac
    have h1 : out.indexOf a < out.indexOf c := by
      have h2 := hmono e he
      rw [hs, ht] at h2
      exact h2
    cases cs with
    | nil =>
      rw [List.getLast?_singleton] at hb
      rw [← Option.some_inj.mp hb]
      exact h1
    | cons c2 cs2 =>
      have hb2 : (c2 :: cs2).getLast? = some b := by
        rwa [List.getLast?_cons_cons] at hb
      exact Nat.lt_trans h1 (ih c hcs b hb2)

theorem topologicalOrder_sound {nodes : List PipelineNodeSpec} {edges : List PipelineEdgeSpec}
    {order : List PipelineNodeSpec}
    (h : topologicalOrder nodes edges = Except.ok order) :
    ∃ out : List String,
      order = out.map (nodeById nodes) ∧
      order.map PipelineNodeSpec.id = out ∧
      out.Nodup ∧
      (∀ i ∈ out, i ∈ nodes.map PipelineNodeSpec.id) ∧
      (∀ i ∈ nodes.map PipelineNodeSpec.id, i ∈ out) ∧
      initialQueue nodes edges <+: out ∧
      (∀ e ∈ edges, e.source ∈ out ∧ e.target ∈ out ∧
        out.indexOf e.source < out.indexOf e.target) := by
  by_cases hnd : (nodes.map PipelineNodeSpec.id).Nodup
  case neg =>
    unfold topologicalOrder at h
    rw [if_pos hnd] at h
    cases h
  cases hce : checkEdges (nodes.map PipelineNodeSpec.id) edges with
  | error msg =>
    unfold topologicalOrder at h
    rw [if_neg (not_not.mpr hnd), hce] at h
    cases h
  | ok u =>
    cases u
    rw [topologicalOrder_eq nodes edges hnd hce] at h
    set out := kahnLoop (adjacencyOf edges) (nodes.length + edges.length + 1)
      (indegreeOf edges) (initialQueue nodes edges) with hout
    by_cases hlen : out.length ≠ nodes.length
    · rw [if_pos hlen] at h
      cases h
    · rw [if_neg hlen] at h
      push_neg at hlen
      have horder : out.map (nodeById nodes) = order := by
        injection h
      have hT : ∀ e ∈ edges, e.target ∈ nodes.map PipelineNodeSpec.id :=
        fun e he => (checkEdges_ok hce e he).2
      obtain ⟨q2, d2, hinv, hcase⟩ := kahnLoop_inv hT (nodes.length + edges.length + 1)
        [] (initialQueue nodes edges) (indegreeOf edges) (kahn_init nodes edges hnd)
      rw [List.nil_append, ← hout] at hinv
      have hsub0 := List.subperm_of_subset hinv.nodupPQ (fun x hx => hinv.memPQ x hx)
      have hlen0 := hsub0.length_le
      rw [List.length_append, List.length_map] at hlen0
      have hq2 : q2 = [] := by
        rcases hcase with h2 | h2
        · exact h2
        · exfalso
          rw [← hout] at h2
          omega
      subst hq2
      have hnodupOut : out.Nodup := by simpa using hinv.nodupPQ
      have hmemOut : ∀ i ∈ out, i ∈ nodes.map PipelineNodeSpec.id :=
        fun i hi => hinv.memPQ i (List.mem_append_left _ hi)
      have hsub : out.Subperm (nodes.map PipelineNodeSpec.id) :=
        List.subperm_of_subset hnodupOut hmemOut
      have hperm := hsub.perm_of_length_le (by rw [List.length_map]; omega)
      refine ⟨out, horder.symm, ?_, hnodupOut, hmemOut, ?_, ?_, ?_⟩
      · rw [← horder, List.map_map]
        have hcg : ∀ i ∈ out, (PipelineNodeSpec.id ∘ nodeById nodes) i = id i := by
          intro i hi
          exact nodeById_id (hmemOut i hi)
        rw [List.map_congr_left hcg, List.map_id]
      · intro i hi
        exact hperm.mem_iff.mpr hi
      · have hq0 : (initialQueue nodes edges).length ≤ nodes.length + edges.length + 1 := by
          have h1 : (initialQueue nodes edges).length =
              ((nodes.map PipelineNodeSpec.id).filter
                (fun i => indegreeOf edges i == 0)).length :=
            (sortByB_perm _ _).length_eq
          have h2 := List.length_filter_le (fun i => indegreeOf edges i == 0)
            (nodes.map PipelineNodeSpec.id)
          rw [List.length_map] at h2
          omega
        have hpre := kahnLoop_queue_order (adjacencyOf edges)
          (nodes.length + edges.length + 1) (initialQueue nodes edges) []
          (indegreeOf edges) hq0
        rw [List.append_nil] at hpre
        rw [hout]
        exact hpre
      · intro e he
        have htmem : e.target ∈ out := hperm.mem_iff.mpr (hT e he)
        obtain ⟨hsmem, hidx⟩ := hinv.edgeDone e he htmem
        exact ⟨hsmem, htmem, hidx⟩

theorem topologicalOrder_complete {nodes : List PipelineNodeSpec}
    {edges : List PipelineEdgeSpec}
    (hnd : (nodes.map PipelineNodeSpec.id).Nodup)
    (hEnds : ∀ e ∈ edges, e.source ∈ nodes.map PipelineNodeSpec.id ∧
      e.target ∈ nodes.map PipelineNodeSpec.id)
    (hDag : IsDag edges) :
    ∃ order, topologicalOrder nodes edges = Except.ok order := by
  obtain ⟨L, hL⟩ := hDag
  have hT : ∀ e ∈ edges, e.target ∈ nodes.map PipelineNodeSpec.id :=
    fun e he => (hEnds e he).2
  have hS : ∀ e ∈ edges, e.source ∈ nodes.map PipelineNodeSpec.id :=
    fun e he => (hEnds e he).1
  set out := kahnLoop (adjacencyOf edges) (nodes.length + edges.length + 1)
    (indegreeOf edges) (initialQueue nodes edges) with hout
  obtain ⟨q2, d2, hinv, hcase⟩ := kahnLoop_inv hT (nodes.length + edges.length + 1)
    [] (initialQueue nodes edges) (indegreeOf edges) (kahn_init nodes edges hnd)
  rw [List.nil_append, ← hout] at hinv
  have hsub0 := List.subperm_of_subset hinv.nodupPQ (fun x hx => hinv.memPQ x hx)
  have hlen0 := hsub0.length_le
  rw [List.length_append, List.length_map] at hlen0
  have hq2 : q2 = [] := by
    rcases hcase with h2 | h2
    · exact h2
    · exfalso
      rw [← hout] at h2
      omega
  subst hq2
  have hnodupOut : out.Nodup := by simpa using hinv.nodupPQ
  have hall : ∀ i ∈ nodes.map PipelineNodeSpec.id, i ∈ out := by
    intro i hi
    exact kahn_complete_mem L hL hS hinv (L.indexOf i + 1) i hi (by omega)
  have hlen_eq : out.length = nodes.length := by
    have hsub2 := List.subperm_of_subset hnd hall
    have hle2 := hsub2.length_le
    rw [List.length_map] at hle2
    omega
  have heq : topologicalOrder nodes edges = Except.ok (out.map (nodeById nodes)) := by
    rw [topologicalOrder_eq nodes edges hnd (checkEdges_ok_of hEnds), ← hout,
      if_neg (not_not.mpr hlen_eq)]
  exact ⟨_, heq⟩

theorem getLast?_append_some {α : Type} (l1 : List α) {l2 : List α} {b : α}
    (h : l2.getLast? = some b) : (l1 ++ l2).getLast? = some b := by
  induction l1 with
  | nil => simpa using h
  | cons x xs ih =>
    rw [List.cons_append]
    cases hx : xs ++ l2 with
    | nil =>
      obtain ⟨-, h2⟩ := List.append_eq_nil.mp hx
      rw [h2] at h
      cases h
    | cons y ys =>
      rw [List.getLast?_cons_cons, ← hx]
      exact ih

theorem startedIds_token_map (i : String) (chunks : List String) :
    startedIds (chunks.map (RunEvent.node_token i)) = [] := by
  induction chunks with
  | nil => rfl
  | cons c cs ih =>
    simp [startedIds, List.filterMap_cons]

theorem count_token_map (i : String) (chunks : List String) (ev : RunEvent)
    (h : ∀ c, ev ≠ RunEvent.node_token i c) :
    (chunks.map (RunEvent.node_token i)).count ev = 0 := by
  rw [List.count_eq_zero]
  intro hmem
  rw [List.mem_map] at hmem
  obtain ⟨c, -, hc⟩ := hmem
  exact h c hc.symm

theorem runNodes_all_ok (exec : PipelineNodeSpec → Except String String) :
    ∀ l : List PipelineNodeSpec, (∀ n ∈ l, ∃ a, exec n = Except.ok a) →
      (runNodes exec l).getLast? = some RunEvent.run_completed ∧
      (runNodes exec l).count RunEvent.run_started = 0 ∧
      (runNodes exec l).count RunEvent.run_completed = 1 ∧
      startedIds (runNodes exec l) = l.map PipelineNodeSpec.id := by
  intro l
  induction l with
  | nil =>
    intro _
    exact ⟨rfl, rfl, rfl, rfl⟩
  | cons n rest ih =>
    intro h
    obtain ⟨a, ha⟩ := h n (List.mem_cons_self _ _)
    obtain ⟨ih1, ih2, ih3, ih4⟩ := ih (fun m hm => h m (List.mem_cons_of_mem _ hm))
    have hstep : runNodes exec (n :: rest) =
        RunEvent.node_started n.id n.type ::
          ((if n.type = "agent" then (streamChunks a).map (RunEvent.node_token n.id)
              else []) ++
            (RunEvent.node_completed n.id n.type :: runNodes exec rest)) := by
      simp only [runNodes, ha]
    have htoks_started : (if n.type = "agent" then
        (streamChunks a).map (RunEvent.node_token n.id) else []).count
          RunEvent.run_started = 0 := by
      by_cases hag : n.type = "agent"
      · rw [if_pos hag]
        exact count_token_map _ _ _ (fun c hc => RunEvent.noConfusion hc)
      · rw [if_neg hag]
        rfl
    have htoks_completed : (if n.type = "agent" then
        (streamChunks a).map (RunEvent.node_token n.id) else []).count
          RunEvent.run_completed = 0 := by
      by_cases hag : n.type = "agent"
      · rw [if_pos hag]
        exact count_token_map _ _ _ (fun c hc => RunEvent.noConfusion hc)
      · rw [if_neg hag]
        rfl
    have htoks_ids : startedIds (if n.type = "agent" then
        (streamChunks a).map (RunEvent.node_token n.id) else []) = [] := by
      by_cases hag : n.type = "agent"
      · rw [if_pos hag]
        exact startedIds_token_map _ _
      · rw [if_neg hag]
        rfl
    rw [hstep]
    refine ⟨?_, ?_, ?_, ?_⟩
    · exact getLast?_append_some
        (RunEvent.node_started n.id n.type ::
          (if n.type = "agent" then (streamChunks a).map (RunEvent.node_token n.id) else []))
        (getLast?_append_some [RunEvent.node_completed n.id n.type] ih1)
    · rw [List.count_cons, List.count_append, List.count_cons, htoks_started, ih2]
      simp
    · rw [List.count_cons, List.count_append, List.count_cons, htoks_completed, ih3]
      simp
    · have h1 : startedIds (RunEvent.node_started n.id n.type ::
          ((if n.type = "agent" then (streamChunks a).map (RunEvent.node_token n.id)
              else []) ++
            (RunEvent.node_completed n.id n.type :: runNodes exec rest))) =
          n.id :: (startedIds (if n.type = "agent" then
              (streamChunks a).map (RunEvent.node_token n.id) else []) ++
            startedIds (RunEvent.node_completed n.id n.type :: runNodes exec rest)) := by
        simp [startedIds, List.filterMap_cons, List.filterMap_append]
      rw [h1, htoks_ids]
      have h2 : startedIds (RunEvent.node_completed n.id n.type :: runNodes exec rest) =
          startedIds (runNodes exec rest) := by
        simp [startedIds, List.filterMap_cons]
      rw [h2, ih4]
      rfl

/-- C1: for a spec with unique node ids, declared edge endpoints and
acyclic edges, run by an executor that never raises, the stream starts
with the single `run_started`, ends with the single `run_completed`, and
every edge's source node starts strictly before its target node. -/
theorem run_stream_dag_spec (spec : PipelineRunSpec)
    (exec : PipelineNodeSpec → Except String String)
    (hNodup : (spec.nodes.map PipelineNodeSpec.id).Nodup)
    (hEnds : ∀ e ∈ spec.edges, e.source ∈ spec.nodes.map PipelineNodeSpec.id ∧
      e.target ∈ spec.nodes.map PipelineNodeSpec.id)
    (hDag : IsDag spec.edges)
    (hOk : ∀ n, ∃ a, exec n = Except.ok a) :
    (runStream exec spec).head? = some RunEvent.run_started ∧
    (runStream exec spec).getLast? = some RunEvent.run_completed ∧
    (runStream exec spec).count RunEvent.run_started = 1 ∧
    (runStream exec spec).count RunEvent.run_completed = 1 ∧
    (∀ e ∈ spec.edges,
      e.source ∈ startedIds (runStream exec spec) ∧
      e.target ∈ startedIds (runStream exec spec) ∧
      (startedIds (runStream exec spec)).indexOf e.source <
        (startedIds (runStream exec spec)).indexOf e.target) := by
  obtain ⟨order, horder⟩ := topologicalOrder_complete hNodup hEnds hDag
  obtain ⟨out, hmap, hids, hnodupOut, hsub, hall, hpre, hedges⟩ := topologicalOrder_sound horder
  have hrs : runStream exec spec = RunEvent.run_started :: runNodes exec order := by
    unfold runStream
    rw [horder]
  obtain ⟨hlast, hcount0, hcount1, hstarted⟩ := runNodes_all_ok exec order (fun n _ => hOk n)
  rw [hrs]
  have hsi : startedIds (RunEvent.run_started :: runNodes exec order) = out := by
    have h1 : startedIds (RunEvent.run_started :: runNodes exec order) =
        startedIds (runNodes exec order) := by
      simp [startedIds, List.filterMap_cons]
    rw [h1, hstarted, hids]
  refine ⟨rfl, ?_, ?_, ?_, ?_⟩
  · exact getLast?_append_some [RunEvent.run_started] hlast
  · rw [List.count_cons, hcount0]
    simp
  · rw [List.count_cons, hcount1]
    simp
  · intro e he
    rw [hsi]
    exact hedges e he

/-- C1 witness: the theorem applied to a three-node DAG run by an executor
that always succeeds. -/
theorem run_stream_dag_spec_witness :
    (c1Spec.nodes.map PipelineNodeSpec.id).Nodup ∧
    IsDag c1Spec.edges ∧
    ((runStream (fun _ => Except.ok "x") c1Spec).head? = some RunEvent.run_started ∧
     (runStream (fun _ => Except.ok "x") c1Spec).getLast? = some RunEvent.run_completed ∧
     (runStream (fun _ => Except.ok "x") c1Spec).count RunEvent.run_started = 1 ∧
     (runStream (fun _ => Except.ok "x") c1Spec).count RunEvent.run_completed = 1 ∧
     (∀ e ∈ c1Spec.edges,
       e.source ∈ startedIds (runStream (fun _ => Except.ok "x") c1Spec) ∧
       e.target ∈ startedIds (runStream (fun _ => Except.ok "x") c1Spec) ∧
       (startedIds (runStream (fun _ => Except.ok "x") c1Spec)).indexOf e.source <
         (startedIds (runStream (fun _ => Except.ok "x") c1Spec)).indexOf e.target)) :=
  ⟨by decide, ⟨["b", "c", "a"], by decide⟩,
    run_stream_dag_spec c1Spec (fun _ => Except.ok "x") (by decide) (by decide)
      ⟨["b", "c", "a"], by decide⟩ (fun n => ⟨"x", rfl⟩)⟩

/-- C2 (amended): a spec that fails graph validation (duplicate id,
undeclared edge endpoint, or cycle) runs no node; but the stream is
`[run_started, run_failed m]` — the source emits `run_started` before
validating, contrary to the claim that only `run_failed` is emitted. -/
theorem run_stream_invalid_spec (spec : PipelineRunSpec)
    (exec : PipelineNodeSpec → Except String String)
    (h : GraphInvalid spec) :
    ∃ m, runStream exec spec = [RunEvent.run_started, RunEvent.run_failed m] := by
  have herr : ∃ m, topologicalOrder spec.nodes spec.edges = Except.error m := by
    rcases h with hdup | hbad | hcyc
    · refine ⟨"Pipeline nodes contain duplicate ids", ?_⟩
      unfold topologicalOrder
      rw [if_pos hdup]
    · by_cases hnd : (spec.nodes.map PipelineNodeSpec.id).Nodup
      · cases hck : checkEdges (spec.nodes.map PipelineNodeSpec.id) spec.edges with
        | error m2 =>
          refine ⟨m2, ?_⟩
          unfold topologicalOrder
          rw [if_neg (not_not.mpr hnd), hck]
        | ok u =>
          cases u
          exfalso
          obtain ⟨e, he, hor⟩ := hbad
          rcases hor with h1 | h1
          · exact h1 (checkEdges_ok hck e he).1
          · exact h1 (checkEdges_ok hck e he).2
      · refine ⟨"Pipeline nodes contain duplicate ids", ?_⟩
        unfold topologicalOrder
        rw [if_pos hnd]
    · cases horder : topologicalOrder spec.nodes spec.edges with
      | error m2 => exact ⟨m2, rfl⟩
      | ok order =>
        exfalso
        obtain ⟨out, -, -, -, -, -, -, hedges⟩ := topologicalOrder_sound horder
        obtain ⟨a, l, hchain⟩ := hcyc
        have hmono : ∀ e ∈ spec.edges, out.indexOf e.source < out.indexOf e.target :=
          fun e he => (hedges e he).2.2
        have hlt := chain_indexOf_lt hmono (l ++ [a]) a hchain a (List.getLast?_concat l)
        omega
  obtain ⟨m, hm⟩ := herr
  refine ⟨m, ?_⟩
  unfold runStream
  rw [hm]

/-- C2 counterexample: on a two-node cycle the stream still contains a
`run_started` event ahead of `run_failed`, refuting "no run_started is
emitted". -/
theorem run_stream_invalid_cex :
    runStream (fun _ => Except.ok "") c2Spec =
      [RunEvent.run_started, RunEvent.run_failed "Pipeline graph contains a cycle"] ∧
    RunEvent.run_started ∈ runStream (fun _ => Except.ok "") c2Spec ∧
    HasCycle c2Spec.edges := by
  refine ⟨by decide, by decide, "a", ["b"], ?_⟩
  refine List.Chain.cons ?_ (List.Chain.cons ?_ List.Chain.nil)
  · exact ⟨{ source := "a", target := "b" }, by decide, rfl, rfl⟩
  · exact ⟨{ source := "b", target := "a" }, by decide, rfl, rfl⟩

/-- C2 witness: the amended theorem applied to the cyclic two-node spec. -/
theorem run_stream_invalid_spec_witness :
    GraphInvalid c2Spec ∧
    (∃ m, runStream (fun _ => Except.ok "") c2Spec =
      [RunEvent.run_started, RunEvent.run_failed m]) := by
  have hG : GraphInvalid c2Spec := by
    refine Or.inr (Or.inr ⟨"a", ["b"], ?_⟩)
    refine List.Chain.cons ?_ (List.Chain.cons ?_ List.Chain.nil)
    · exact ⟨{ source := "a", target := "b" }, by decide, rfl, rfl⟩
    · exact ⟨{ source := "b", target := "a" }, by decide, rfl, rfl⟩
  exact ⟨hG, run_stream_invalid_spec c2Spec (fun _ => Except.ok "") hG⟩

/-- C3 (amended): the executed order is a topological sort of the edges
that begins with the ascending-sorted initially-ready ids (and the pure
model makes determinism immediate); the claimed GLOBAL smallest-ready-id
tie-break fails — nodes that become ready later join the FIFO queue at the
back (see the counterexample). -/
theorem run_stream_tie_order_spec (spec : PipelineRunSpec)
    (exec : PipelineNodeSpec → Except String String)
    (hNodup : (spec.nodes.map PipelineNodeSpec.id).Nodup)
    (hEnds : ∀ e ∈ spec.edges, e.source ∈ spec.nodes.map PipelineNodeSpec.id ∧
      e.target ∈ spec.nodes.map PipelineNodeSpec.id)
    (hDag : IsDag spec.edges)
    (hOk : ∀ n, ∃ a, exec n = Except.ok a) :
    initialQueue spec.nodes spec.edges <+: startedIds (runStream exec spec) ∧
    (∀ e ∈ spec.edges,
      (startedIds (runStream exec spec)).indexOf e.source <
        (startedIds (runStream exec spec)).indexOf e.target) := by
  obtain ⟨order, horder⟩ := topologicalOrder_complete hNodup hEnds hDag
  obtain ⟨out, hmap, hids, hnodupOut, hsub, hall, hpre, hedges⟩ := topologicalOrder_sound horder
  have hrs : runStream exec spec = RunEvent.run_started :: runNodes exec order := by
    unfold runStream
    rw [horder]
  obtain ⟨hlast, hcount0, hcount1, hstarted⟩ := runNodes_all_ok exec order (fun n _ => hOk n)
  have hsi : startedIds (runStream exec spec) = out := by
    rw [hrs]
    have h1 : startedIds (RunEvent.run_started :: runNodes exec order) =
        startedIds (runNodes exec order) := by
      simp [startedIds, List.filterMap_cons]
    rw [h1, hstarted, hids]
  rw [hsi]
  exact ⟨hpre, fun e he => (hedges e he).2.2⟩

/-- C3 counterexample: a valid three-node spec (nodes `b`, `c`, `a`, edge
`b → a`) in which `a` is ready at step 2 with the smallest id among the
ready nodes, yet `c` runs next — Kahn's FIFO queue does not re-sort. -/
theorem run_stream_tie_order_cex :
    topologicalOrder c3Spec.nodes c3Spec.edges = Except.ok c3Spec.nodes ∧
    ¬ smallestReadyFirst c3Spec (startedIds (runStream (fun _ => Except.ok "") c3Spec)) := by
  constructor
  · rfl
  · unfold smallestReadyFirst
    decide

/-- C3 witness: the amended theorem applied to the counterexample spec. -/
theorem run_stream_tie_order_spec_witness :
    (c3Spec.nodes.map PipelineNodeSpec.id).Nodup ∧
    IsDag c3Spec.edges ∧
    (initialQueue c3Spec.nodes c3Spec.edges <+:
      startedIds (runStream (fun _ => Except.ok "y") c3Spec) ∧
    (∀ e ∈ c3Spec.edges,
      (startedIds (runStream (fun _ => Except.ok "y") c3Spec)).indexOf e.source <
        (startedIds (runStream (fun _ => Except.ok "y") c3Spec)).indexOf e.target)) :=
  ⟨by decide, ⟨["b", "c", "a"], by decide⟩,
    run_stream_tie_order_spec c3Spec (fun _ => Except.ok "y") (by decide) (by decide)
      ⟨["b", "c", "a"], by decide⟩ (fun n => ⟨"y", rfl⟩)⟩
